import Mathlib

/-! KallistiOS: `kernel/fs/fs_utils.c`, `arch/rtc.h`, `kernel/libc/koslib/assert.c`

A shallow embedding of `fs_path_append`, `fs_copy` and `fs_load`, of the
conversions of the real-time clock and of the assertion handler, and the
properties of them that the specification states.

Conventions of the embedding.

* A byte is a `Nat`; `'/'` is 47 and the string terminator is 0.
* A `char *` is an `Option (List Nat)`: `none` is the null pointer, `some m` is
  the memory that starts at the pointer, every byte of it accessible. A C string
  is such a memory with a 0 byte in it; an access outside the memory is
  undefined behaviour, and the embedded function then yields `none`.
* `size_t` is 32 bits wide on the SH-4: sums of `size_t` values are reduced
  modulo `2 ^ 32`, and the conversion to `ssize_t` is two's complement.
-/

namespace KOS

/-! ## Machine integers -/

/-- Number of values of a `size_t` (32 bits on the SH-4). -/
def SIZE_MOD : Nat := 4294967296

/-- Addition of two `size_t` values. -/
def szAdd (a b : Nat) : Nat := (a + b) % SIZE_MOD

/-- Subtraction of two `size_t` values. -/
def szSub (a b : Nat) : Nat := (a + SIZE_MOD - b % SIZE_MOD) % SIZE_MOD

/-- The cast `(ssize_t)x` of a `size_t`. -/
def toSsize (x : Nat) : Int :=
  if x % SIZE_MOD < 2147483648 then ((x % SIZE_MOD : Nat) : Int)
  else ((x % SIZE_MOD : Nat) : Int) - 4294967296

/-! ## C strings in memory -/

/-- The byte `'/'`. -/
def SLASH : Nat := 47

/-- `strlen`: the index of the first 0 byte; `none` when the memory holds none
(the scan leaves the object). -/
def strlen : List Nat → Option Nat
  | [] => none
  | b :: rest => if b = 0 then some 0 else (strlen rest).map (· + 1)

/-- The store `m[i] = b`; `none` when `i` is outside the memory. -/
def storeByte (m : List Nat) (i : Nat) (b : Nat) : Option (List Nat) :=
  if i < m.length then some (m.set i b) else none

/-- `memcpy(dst + off, src, n)`; `none` when it reads or writes outside the
memory of either operand. -/
def memcpy (dst : List Nat) (off : Nat) (src : List Nat) (n : Nat) : Option (List Nat) :=
  if off + n ≤ dst.length ∧ n ≤ src.length then
    some (dst.take off ++ src.take n ++ dst.drop (off + n))
  else none

/-- Values that `fs_path_append` stores into `errno`. -/
inductive Errno
  | EFAULT
  | EINVAL
  | ENAMETOOLONG
  deriving DecidableEq, Repr

/-- Outcome of a call of `fs_path_append`: the value returned, the value stored
into `errno` (if any), and the memory at `dst` afterwards. -/
structure AppendOut where
  ret : Int
  errno : Option Errno
  dst : Option (List Nat)
  deriving DecidableEq, Repr

/-- Lines 166-175 of `fs_utils.c`: the end of `fs_path_append`, reached when the
space check has passed. `d` is the memory at `dst`, `dlen` the current value of
the variable `dlen`. -/
def path_join (d : List Nat) (dlen : Nat) (s : List Nat) (slen : Nat) : Option AppendOut :=
  -- if(dlen > 0 && dst[dlen - 1] == '/' && src[0] == '/') --dlen;
  let dlen1 :=
    if 0 < dlen ∧ d.getD (dlen - 1) 0 = SLASH ∧ s.getD 0 0 = SLASH then szSub dlen 1 else dlen
  -- memcpy(dst + dlen, src, slen + 1);
  (memcpy d dlen1 s (szAdd slen 1)).map fun d1 =>
    -- return (ssize_t)(dlen + slen + 1);
    { ret := toSsize (szAdd (szAdd dlen1 slen) 1), errno := none, dst := some d1 }

/-- `ssize_t fs_path_append(char *dst, const char *src, size_t len)`,
lines 128-176 of `fs_utils.c`. The result is `none` on undefined behaviour. -/
def fs_path_append (dst src : Option (List Nat)) (len : Nat) : Option AppendOut :=
  match src, dst with
  | some s, some d =>
    if len = 0 then
      some { ret := -1, errno := some Errno.EINVAL, dst := dst }
    else
      match strlen d, strlen s with
      | some dlen, some slen =>
        if dlen = 0 ∧ slen = 0 then
          some { ret := 1, errno := none, dst := dst }
        else if dlen = 0 ∨ d.getD (dlen - 1) 0 ≠ SLASH then
          if szAdd (szAdd dlen slen) 2 > len then
            some { ret := -1, errno := some Errno.ENAMETOOLONG, dst := dst }
          else if s.getD 0 0 ≠ SLASH then
            -- dst[dlen++] = '/';
            (storeByte d dlen SLASH).bind fun d1 => path_join d1 (szAdd dlen 1) s slen
          else path_join d dlen s slen
        else if szAdd (szAdd dlen slen) 1 > len then
          some { ret := -1, errno := some Errno.ENAMETOOLONG, dst := dst }
        else path_join d dlen s slen
      | _, _ => none
  | _, _ => some { ret := -1, errno := some Errno.EFAULT, dst := dst }

/-- The memory of a C string: the characters `cs` (none of them 0), the
terminator, and the bytes `rest` that follow it in the object. -/
def cstr (cs : List Nat) (rest : List Nat) : List Nat := cs ++ 0 :: rest

/-- The characters of the C string held in a memory: the bytes before the first
0 byte. -/
def chars : List Nat → List Nat
  | [] => []
  | b :: rest => if b = 0 then [] else b :: chars rest

/-- Both objects lie within the half of the 32-bit address space whose sizes an
`ssize_t` can hold: the standing assumption on the two pointer arguments. -/
def Addressable (d s : List Nat) : Prop := d.length + s.length < 2147483648

instance (d s : List Nat) : Decidable (Addressable d s) := by
  unfold Addressable; infer_instance

/-- Whether the C string with characters `cs` ends with `'/'`. -/
def endsSlash (cs : List Nat) : Prop := cs.getLast? = some SLASH

/-- Whether the C string with characters `ss` starts with `'/'`. -/
def startsSlash (ss : List Nat) : Prop := ss.head? = some SLASH

instance (cs : List Nat) : Decidable (endsSlash cs) := by unfold endsSlash; infer_instance

instance (ss : List Nat) : Decidable (startsSlash ss) := by unfold startsSlash; infer_instance

/-- The joined path as the specification describes it: `dst`, then a separator
only where one is inserted (neither does `dst` end with one nor `src` start with
one), then `src`, less the duplicate separator when `dst` ends with one and
`src` starts with one; two empty strings join to the empty string. -/
def joined (cs ss : List Nat) : List Nat :=
  if cs = [] ∧ ss = [] then []
  else if ¬ endsSlash cs ∧ ¬ startsSlash ss then cs ++ SLASH :: ss
  else if endsSlash cs ∧ startsSlash ss then cs.dropLast ++ ss
  else cs ++ ss

/-- The space check of lines 150-164, on the lengths of the two strings: whether
the call fails with `ENAMETOOLONG`. -/
def tooLong (cs ss : List Nat) (len : Nat) : Prop :=
  ¬ (cs = [] ∧ ss = []) ∧
    if ¬ endsSlash cs then cs.length + ss.length + 2 > len
    else cs.length + ss.length + 1 > len

instance (cs ss : List Nat) (len : Nat) : Decidable (tooLong cs ss len) := by
  unfold tooLong; infer_instance

/-! ## The file utilities `fs_copy` and `fs_load`

The functions of `<kos/fs.h>` and of the allocator are not part of
`fs_utils.c`; they are taken as parameters (`Kernel`). The state of the world
they act on is threaded through every call, and the embedded functions record
the calls they make, in order. An `ssize_t` is an `Int`; in `fs_copy` the size
that `fs_total` returns is converted to the 32 bits of an `ssize_t`, and a sum
that leaves that range is undefined behaviour (`none`). -/

/-- The conversion of a value to `ssize_t`, 32 bits in two's complement. -/
def wrapSsize (x : Int) : Int := (x + 2147483648) % 4294967296 - 2147483648

/-- The largest value of an `ssize_t`. -/
def SSIZE_MAX : Int := 2147483647

/-- The conversion of an `ssize_t` to `size_t`. -/
def toSize (x : Int) : Nat := (x % 4294967296).toNat

/-- A block of memory: its size, its bytes and its address. A pointer is an
`Option Block`, `none` being the null pointer. -/
structure Block where
  size : Nat
  byte : Nat → Nat
  addr : Nat := 0

/-- The block after `data` has been stored at offset `off`. -/
def Block.store (b : Block) (off : Nat) (data : List Nat) : Block :=
  { b with
    byte := fun i => if off ≤ i ∧ i < off + data.length then data.getD (i - off) 0 else b.byte i }

/-- The `n` bytes of the block from offset `off` on. -/
def Block.load (b : Block) (off n : Nat) : List Nat :=
  (List.range n).map fun i => b.byte (off + i)

/-- Flags of `fs_open`. -/
inductive OFlag
  | O_RDONLY
  | O_WRONLY
  | O_TRUNC
  | O_CREAT
  deriving DecidableEq, Repr

/-- A call made by the file utilities. For `fs_read` and `fs_write`, `buf` is
the offset of the buffer argument in its block, `none` for a null pointer. -/
inductive Call
  | fs_open (fn : String) (mode : List OFlag)
  | fs_close (hnd : Int)
  | fs_total (hnd : Int)
  | fs_read (hnd : Int) (buf : Option Nat) (cnt : Nat)
  | fs_write (hnd : Int) (buf : Option Nat) (cnt : Nat)
  | malloc (size : Nat)
  | realloc (size : Nat)
  | free
  deriving DecidableEq, Repr

/-- The functions that `fs_utils.c` calls and does not define, over a state `σ`
of the world. `fs_read s h blk off cnt` reads into the buffer at offset `off` of
the block `blk` and yields the value returned, the block afterwards and the new
state; `fs_write s h blk cnt` writes the first `cnt` bytes of the block. -/
structure Kernel (σ : Type) where
  FILEHND_INVALID : Int
  fs_open : σ → String → List OFlag → Int × σ
  fs_close : σ → Int → σ
  fs_total : σ → Int → Int × σ
  fs_read : σ → Int → Option Block → Nat → Nat → Int × Option Block × σ
  fs_write : σ → Int → Option Block → Nat → Int × σ
  malloc : σ → Nat → Option Block × σ
  realloc : σ → Option Block → Nat → Option Block × σ
  free : σ → Option Block → σ

/-- Outcome of `fs_copy`: the value returned, the state of the world and the
calls made. -/
structure CopyOut (σ : Type) where
  ret : Int
  st : σ
  trace : List Call

/-- The variables of `fs_copy` when its loop is left. -/
structure CopyVars (σ : Type) where
  total : Int
  buff : Option Block
  st : σ
  trace : List Call

/-- The loop of `fs_copy`, lines 52-61, run for at most `fuel` iterations.
`left`, `total` and `r` are 32-bit `ssize_t`: the result is `none` when
`total += r` leaves the range of an `ssize_t` (signed overflow, undefined
behaviour), which includes every `r` above that range, or when the fuel does
not suffice. `left -= r` cannot leave the range, `left` being positive and `r`
between 1 and `SSIZE_MAX` there. -/
def fs_copy_loop {σ : Type} (K : Kernel σ) (fs fd : Int) :
    Nat → Int → Int → Option Block → σ → List Call → Option (CopyVars σ)
  | 0, left, total, buff, s, tr =>
    if left > 0 then none else some { total := total, buff := buff, st := s, trace := tr }
  | fuel + 1, left, total, buff, s, tr =>
    if left > 0 then
      -- r = fs_read(fs, buff, 65536);
      let rd := K.fs_read s fs buff 0 65536
      let r := rd.1
      let tr1 := tr ++ [Call.fs_read fs (buff.map fun _ => 0) 65536]
      if r ≤ 0 then
        some { total := total, buff := rd.2.1, st := rd.2.2, trace := tr1 }
      else
        -- fs_write(fd, buff, r); left -= r; total += r;
        let wr := K.fs_write rd.2.2 fd rd.2.1 (toSize r)
        if total + r > SSIZE_MAX then none
        else
          fs_copy_loop K fs fd fuel (left - r) (total + r) rd.2.1 wr.2
            (tr1 ++ [Call.fs_write fd (rd.2.1.map fun _ => 0) (toSize r)])
    else some { total := total, buff := buff, st := s, trace := tr }

/-- `ssize_t fs_copy(const char *src, const char *dst)`, lines 25-71 of
`fs_utils.c`. The `size_t` that `fs_total` returns is converted to the 32-bit
`ssize_t left`, so a size of `2 ^ 31` or more is negative there. The loop gets
`left` iterations of fuel, which suffice; the result is `none` only on the
overflow of `total`. -/
def fs_copy {σ : Type} (K : Kernel σ) (s : σ) (src dst : String) : Option (CopyOut σ) :=
  let o1 := K.fs_open s src [OFlag.O_RDONLY]
  let fs := o1.1
  if fs = K.FILEHND_INVALID then
    some { ret := -1, st := o1.2, trace := [Call.fs_open src [OFlag.O_RDONLY]] }
  else
    let mode := [OFlag.O_WRONLY, OFlag.O_TRUNC, OFlag.O_CREAT]
    let o2 := K.fs_open o1.2 dst mode
    let fd := o2.1
    if fd = K.FILEHND_INVALID then
      some { ret := -2, st := K.fs_close o2.2 fs,
             trace := [Call.fs_open src [OFlag.O_RDONLY], Call.fs_open dst mode,
                       Call.fs_close fs] }
    else
      let t := K.fs_total o2.2 fs
      let left := wrapSsize t.1
      let m := K.malloc t.2 65536
      (fs_copy_loop K fs fd left.toNat left 0 m.1 m.2
        [Call.fs_open src [OFlag.O_RDONLY], Call.fs_open dst mode, Call.fs_total fs,
         Call.malloc 65536]).map fun v =>
        { ret := v.total
          st := K.fs_close (K.fs_close (K.free v.st v.buff) fs) fd
          trace := v.trace ++ [Call.free, Call.fs_close fs, Call.fs_close fd] }

/-- Outcome of `fs_load`: the value returned, the value of `*out_ptr`, the
state of the world and the calls made. -/
structure LoadOut (σ : Type) where
  ret : Int
  out_ptr : Option Block
  st : σ
  trace : List Call

/-- The variables of `fs_load` when its loop is left; `out` is the offset of
the pointer `out` in the block `data`. -/
structure LoadVars (σ : Type) where
  left : Int
  total : Int
  out : Nat
  data : Option Block
  st : σ
  trace : List Call

/-- The loop of `fs_load`, lines 100-109, run for at most `fuel` iterations;
`none` when the fuel does not suffice. -/
def fs_load_loop {σ : Type} (K : Kernel σ) (f : Int) :
    Nat → Int → Int → Nat → Option Block → σ → List Call → Option (LoadVars σ)
  | 0, left, total, out, data, s, tr =>
    if left > 0 then none
    else some { left := left, total := total, out := out, data := data, st := s, trace := tr }
  | fuel + 1, left, total, out, data, s, tr =>
    if left > 0 then
      -- r = fs_read(f, out, left);
      let rd := K.fs_read s f data out (toSize left)
      let tr1 := tr ++ [Call.fs_read f (data.map fun _ => out) (toSize left)]
      if rd.1 ≤ 0 then
        some { left := left, total := total, out := out, data := rd.2.1, st := rd.2.2,
               trace := tr1 }
      else
        -- left -= r; total += r; out += r;
        fs_load_loop K f fuel (left - rd.1) (total + rd.1) (out + rd.1.toNat) rd.2.1 rd.2.2 tr1
    else some { left := left, total := total, out := out, data := data, st := s, trace := tr }

/-- `ssize_t fs_load(const char *src, void **out_ptr)`, lines 78-124 of
`fs_utils.c`; `out_ptr` is the value `*out_ptr` holds before the call. The loop
gets `left` iterations of fuel. -/
def fs_load {σ : Type} (K : Kernel σ) (s : σ) (src : String) (out_ptr : Option Block) :
    Option (LoadOut σ) :=
  -- *out_ptr = NULL;
  let out_ptr0 : Option Block := (fun _ => none) out_ptr
  let o := K.fs_open s src [OFlag.O_RDONLY]
  let f := o.1
  if f = K.FILEHND_INVALID then
    some { ret := -1, out_ptr := out_ptr0, st := o.2,
           trace := [Call.fs_open src [OFlag.O_RDONLY]] }
  else
    let t := K.fs_total o.2 f
    let left := t.1
    let m := K.malloc t.2 (toSize left)
    (fs_load_loop K f left.toNat left 0 0 m.1 m.2
      [Call.fs_open src [OFlag.O_RDONLY], Call.fs_total f, Call.malloc (toSize left)]).map
      fun v =>
        if v.left > 0 then
          -- *out_ptr = realloc(data, total); if(*out_ptr == NULL) *out_ptr = data;
          let ra := K.realloc v.st v.data (toSize v.total)
          { ret := v.total
            out_ptr := if ra.1.isNone then v.data else ra.1
            st := K.fs_close ra.2 f
            trace := v.trace ++ [Call.realloc (toSize v.total), Call.fs_close f] }
        else
          { ret := v.total, out_ptr := v.data, st := K.fs_close v.st f,
            trace := v.trace ++ [Call.fs_close f] }

/-! ### A simulated file system

One source file and one destination file, with scripted answers. -/

/-- State of the simulated world. `answer pos cnt` is the value `fs_read`
returns when `pos` bytes of the source have been delivered and `cnt` are asked
for; `accept n cnt` is the value `fs_write` returns when the destination holds
`n` bytes and `cnt` are offered. `live` holds the addresses of the blocks that
are allocated and not freed, `nextAddr` is the address of the next block, and
`zeroFrees` tells whether `realloc (p, 0)` frees `p` and returns null, as the
C standard allows. -/
structure Sim where
  srcOpens : Bool
  dstOpens : Bool
  mallocOk : Bool
  reallocOk : Bool
  content : List Nat
  reported : Int
  answer : Nat → Nat → Int
  accept : Nat → Nat → Int
  junk : Nat → Nat
  pos : Nat
  dest : List Nat
  zeroFrees : Bool := false
  nextAddr : Nat := 1
  live : List Nat := []

/-- Handle of the source file in the simulation. -/
def SRC_HND : Int := 3

/-- Handle of the destination file in the simulation. -/
def DST_HND : Int := 4

/-- Modelled from the spec: the virtual file handle abstraction (`open`,
`close`, `read`, `write`, `total`) and the allocator, which `fs_utils.c` only
calls. A read-only open opens the source, any other open truncates and opens
the destination. A positive answer `r` of `fs_read` delivers the next `r` bytes
of the source into the buffer; a positive answer `w` of `fs_write` appends the
first `w` bytes offered to the destination. `malloc` hands out a block at a new
address; `free` takes the address of the block off the live ones. `realloc` of
a block to size 0 frees it and returns null when `zeroFrees` is set; otherwise
a successful `realloc` resizes the block in place, keeping its bytes, and a
failed one returns null and leaves the block as it is. `realloc` of the null
pointer is a `malloc`. -/
def simKernel : Kernel Sim where
  FILEHND_INVALID := -1
  fs_open := fun s _ mode =>
    if mode = [OFlag.O_RDONLY] then
      if s.srcOpens then (SRC_HND, { s with pos := 0 }) else (-1, s)
    else if s.dstOpens then (DST_HND, { s with dest := [] }) else (-1, s)
  fs_close := fun s _ => s
  fs_total := fun s h => (if h = SRC_HND then s.reported else -1, s)
  fs_read := fun s h blk off cnt =>
    match blk with
    | none => (-1, none, s)
    | some b =>
      if h = SRC_HND ∧ 0 < s.answer s.pos cnt then
        let data := (s.content.drop s.pos).take (s.answer s.pos cnt).toNat
        (s.answer s.pos cnt, some (b.store off data), { s with pos := s.pos + data.length })
      else if h = SRC_HND then (s.answer s.pos cnt, some b, s)
      else (-1, some b, s)
  fs_write := fun s h blk cnt =>
    match blk with
    | none => (-1, s)
    | some b =>
      if h = DST_HND ∧ 0 < s.accept s.dest.length cnt then
        (s.accept s.dest.length cnt,
          { s with dest := s.dest ++ (b.load 0 cnt).take (s.accept s.dest.length cnt).toNat })
      else if h = DST_HND then (s.accept s.dest.length cnt, s)
      else (-1, s)
  malloc := fun s n =>
    if s.mallocOk then
      (some { size := n, byte := s.junk, addr := s.nextAddr },
        { s with nextAddr := s.nextAddr + 1, live := s.nextAddr :: s.live })
    else (none, s)
  realloc := fun s blk n =>
    match blk with
    | none =>
      if s.reallocOk then
        (some { size := n, byte := s.junk, addr := s.nextAddr },
          { s with nextAddr := s.nextAddr + 1, live := s.nextAddr :: s.live })
      else (none, s)
    | some b =>
      if n = 0 ∧ s.zeroFrees = true then (none, { s with live := s.live.erase b.addr })
      else if s.reallocOk then (some { size := n, byte := b.byte, addr := b.addr }, s)
      else (none, s)
  free := fun s blk =>
    match blk with
    | none => s
    | some b => { s with live := s.live.erase b.addr }

/-- A simulated world whose source holds `content`, reported with its true
size, read in chunks of at most `chunk` bytes, every call succeeding. -/
def simOf (content : List Nat) (chunk : Nat) : Sim where
  srcOpens := true
  dstOpens := true
  mallocOk := true
  reallocOk := true
  content := content
  reported := content.length
  answer := fun pos cnt => min (min chunk cnt) (content.length - pos)
  accept := fun _ cnt => cnt
  junk := fun _ => 0
  pos := 0
  dest := [9, 9]

/-- Whether a call is an `fs_read` or an `fs_write`. -/
def Call.isTransfer : Call → Bool
  | Call.fs_read _ _ _ => true
  | Call.fs_write _ _ _ => true
  | _ => false

/-- The characters of `dst` with one trailing `'/'` removed if it has one. -/
def dropTrailingSlash (cs : List Nat) : List Nat :=
  if endsSlash cs then cs.dropLast else cs

/-- The characters of `src` with one leading `'/'` removed if it has one. -/
def dropLeadingSlash (ss : List Nat) : List Nat :=
  if startsSlash ss then ss.tail else ss

/-- The states of the world that calls of the kernel lead to from `s0`. -/
inductive Kernel.Reach {σ : Type} (K : Kernel σ) (s0 : σ) : σ → Prop
  | start : Kernel.Reach K s0 s0
  | fs_open {s : σ} (fn : String) (mode : List OFlag) :
      Kernel.Reach K s0 s → Kernel.Reach K s0 (K.fs_open s fn mode).2
  | fs_close {s : σ} (h : Int) : Kernel.Reach K s0 s → Kernel.Reach K s0 (K.fs_close s h)
  | fs_total {s : σ} (h : Int) : Kernel.Reach K s0 s → Kernel.Reach K s0 (K.fs_total s h).2
  | fs_read {s : σ} (h : Int) (blk : Option Block) (off cnt : Nat) :
      Kernel.Reach K s0 s → Kernel.Reach K s0 (K.fs_read s h blk off cnt).2.2
  | fs_write {s : σ} (h : Int) (blk : Option Block) (cnt : Nat) :
      Kernel.Reach K s0 s → Kernel.Reach K s0 (K.fs_write s h blk cnt).2
  | malloc {s : σ} (n : Nat) : Kernel.Reach K s0 s → Kernel.Reach K s0 (K.malloc s n).2
  | realloc {s : σ} (blk : Option Block) (n : Nat) :
      Kernel.Reach K s0 s → Kernel.Reach K s0 (K.realloc s blk n).2
  | free {s : σ} (blk : Option Block) : Kernel.Reach K s0 s → Kernel.Reach K s0 (K.free s blk)

/-! ## The real-time clock, `arch/rtc.h`

The header declares `rtc_unix_secs` and `rtc_set_unix_secs` and documents the
counter and its two registers; the bodies of the functions are not among the
sources. -/

/-- Modelled from the spec: the fixed offset between the epoch of the counter
(1 January 1950) and the Unix epoch (1 January 1970), in seconds, which
`rtc_unix_secs` subtracts and `rtc_set_unix_secs` adds; the body of neither
function is among the sources. -/
def RTC_EPOCH_DELTA : Int := 631152000

/-- Modelled from the spec: the conversion of `rtc_unix_secs`, whose body is
missing, from a value of the 32-bit counter to a Unix timestamp. -/
def unix_decode (h : Nat) : Int := (h : Int) - RTC_EPOCH_DELTA

/-- Modelled from the spec: the conversion of `rtc_set_unix_secs`, whose body is
missing, from a Unix timestamp to a value of the counter, an unsigned 32-bit
integer. -/
def hardware_encode (t : Int) : Nat := ((t + RTC_EPOCH_DELTA) % 4294967296).toNat

/-- Modelled from the spec: the content of the register at
`RTC_TIMESTAMP_HIGH_ADDR`, the upper 16 bits of the counter; the code that
accesses the register is missing. -/
def timestamp_high (h : Nat) : Nat := h >>> 16

/-- Modelled from the spec: the content of the register at
`RTC_TIMESTAMP_LOW_ADDR`, the lower 16 bits of the counter; the code that
accesses the register is missing. -/
def timestamp_low (h : Nat) : Nat := h &&& 0xffff

/-- Modelled from the spec: the counter rebuilt from the two registers, of each
of which only the lower 16 bits are valid; the code that reads them is
missing. -/
def timestamp_join (high low : Nat) : Nat := ((high &&& 0xffff) <<< 16) ||| (low &&& 0xffff)

/-- Leap years of the proleptic Gregorian calendar. -/
def isLeapYear (y : Nat) : Bool := (y % 4 == 0 && y % 100 != 0) || y % 400 == 0

/-- Number of days of a year. -/
def daysInYear (y : Nat) : Nat := if isLeapYear y then 366 else 365

/-- Number of days of the month `m` (1 to 12) of the year `y`. -/
def daysInMonth (y m : Nat) : Nat :=
  match m with
  | 2 => if isLeapYear y then 29 else 28
  | 4 => 30
  | 6 => 30
  | 9 => 30
  | 11 => 30
  | _ => 31

/-- Modelled from the spec: the number of days from 1 January 1950 to the day
`d` of the month `m` of the year `y ≥ 1950`, in the proleptic Gregorian calendar
that the documentation of `rtc.h` counts in. -/
def daysSince1950 (y m d : Nat) : Nat :=
  ((List.range (y - 1950)).map fun k => daysInYear (1950 + k)).sum +
    ((List.range (m - 1)).map fun k => daysInMonth y (k + 1)).sum + (d - 1)

/-- Modelled from the spec: the number of seconds from 1950-01-01 00:00:00 to a
date and time of day, with days of 86400 seconds. -/
def secondsSince1950 (y m d hh mi ss : Nat) : Nat :=
  daysSince1950 y m d * 86400 + hh * 3600 + mi * 60 + ss

/-! ## The assertion handler, `kernel/libc/koslib/assert.c` -/

/-- An assertion handler, a pointer to a function: the default handler of
`assert.c` or another function, identified by its address. -/
inductive Handler
  | assert_handler_default
  | other (addr : Nat)
  deriving DecidableEq, Repr

/-- One call of a handler, with its five arguments. A `const char *` is an
`Option String`, `none` being the null pointer. -/
structure Invocation where
  hnd : Handler
  file : Option String
  line : Int
  expr : Option String
  msg : Option String
  func : Option String
  deriving DecidableEq, Repr

/-- The static variable `a_hnd`, the active handler; `none` is the null
pointer. -/
structure AssertState where
  a_hnd : Option Handler
  deriving DecidableEq, Repr

/-- The state at start-up: `a_hnd = assert_handler_default`. -/
def AssertState.initial : AssertState := { a_hnd := some Handler.assert_handler_default }

/-- `assert_handler_t assert_set_handler(assert_handler_t hnd)`, lines 41-45 of
`assert.c`: the value returned and the new state. -/
def assert_set_handler (st : AssertState) (hnd : Option Handler) :
    Option Handler × AssertState :=
  let rv := st.a_hnd
  (rv, { a_hnd := hnd })

/-- `void __assert(file, line, expr, msg, func)`, lines 47-50 of `assert.c`:
the calls of handlers it makes. -/
def __assert (st : AssertState) (file : Option String) (line : Int) (expr msg func : Option String) :
    List Invocation :=
  match st.a_hnd with
  | some h => [{ hnd := h, file := file, line := line, expr := expr, msg := msg, func := func }]
  | none => []

/-- `void __assert_func(file, line, func, expr)`, lines 52-54 of `assert.c`. -/
def __assert_func (st : AssertState) (file : Option String) (line : Int)
    (func expr : Option String) : List Invocation :=
  __assert st file line expr none func

/-! ## Lemmas on C strings -/

theorem szAdd_of_lt {a b : Nat} (h : a + b < 4294967296) : szAdd a b = a + b := by
  unfold szAdd SIZE_MOD; exact Nat.mod_eq_of_lt h

theorem szSub_one_of_pos {a : Nat} (h0 : 0 < a) (h : a < 4294967296) : szSub a 1 = a - 1 := by
  unfold szSub SIZE_MOD; omega

theorem toSsize_of_lt {a : Nat} (h : a < 2147483648) : toSsize a = (a : Int) := by
  unfold toSsize SIZE_MOD
  have h1 : a % 4294967296 = a := Nat.mod_eq_of_lt (by omega)
  rw [h1, if_pos h]

theorem cstr_length (cs rest : List Nat) : (cstr cs rest).length = cs.length + rest.length + 1 := by
  simp [cstr]; omega

theorem strlen_cstr {cs : List Nat} (h : 0 ∉ cs) (rest : List Nat) :
    strlen (cstr cs rest) = some cs.length := by
  induction cs with
  | nil => simp [cstr, strlen]
  | cons b bs ih =>
    have hb : b ≠ 0 := fun e => h (by simp [e])
    have hbs : 0 ∉ bs := fun e => h (by simp [e])
    have := ih hbs
    simp only [cstr] at this
    simp [cstr, strlen, hb, this]

theorem chars_cstr {cs : List Nat} (h : 0 ∉ cs) (rest : List Nat) :
    chars (cstr cs rest) = cs := by
  induction cs with
  | nil => simp [cstr, chars]
  | cons b bs ih =>
    have hb : b ≠ 0 := fun e => h (by simp [e])
    have hbs : 0 ∉ bs := fun e => h (by simp [e])
    have := ih hbs
    simp only [cstr] at this
    simp [cstr, chars, hb, this]

/-- The byte before the terminator is the last character. -/
theorem getD_cstr_last {cs : List Nat} (hne : cs ≠ []) (rest : List Nat) :
    (cstr cs rest).getD (cs.length - 1) 0 = cs.getLast hne := by
  have hpos : 0 < cs.length := List.length_pos.mpr hne
  have hlt : cs.length - 1 < cs.length := by omega
  rw [List.getLast_eq_getElem]
  simp [cstr, List.getD_eq_getElem?_getD, List.getElem?_append_left hlt, List.getElem?_eq_getElem hlt]

theorem getD_cstr_last_eq_iff {cs : List Nat} (hne : cs ≠ []) (rest : List Nat) (c : Nat) :
    (cstr cs rest).getD (cs.length - 1) 0 = c ↔ cs.getLast? = some c := by
  rw [getD_cstr_last hne, List.getLast?_eq_getLast _ hne]; simp

/-- The first byte is the first character, `c` not being the terminator. -/
theorem getD_cstr_head_eq_iff (ss rest : List Nat) {c : Nat} (hc : c ≠ 0) :
    (cstr ss rest).getD 0 0 = c ↔ ss.head? = some c := by
  cases ss with
  | nil => simp [cstr]; exact fun e => hc e.symm
  | cons b bs => simp [cstr]

theorem storeByte_cstr (cs rest : List Nat) (b : Nat) :
    storeByte (cstr cs rest) cs.length b = some (cs ++ b :: rest) := by
  have h : cs.length < (cstr cs rest).length := by rw [cstr_length]; omega
  unfold storeByte
  rw [if_pos h]
  simp [cstr, List.set_append_right]

/-- Copying the characters of `ss` and the terminator over what follows a prefix
`p` of the memory. -/
theorem memcpy_cstr (p q ss srest : List Nat) (h : ss.length + 1 ≤ q.length) :
    memcpy (p ++ q) p.length (cstr ss srest) (ss.length + 1)
      = some (cstr (p ++ ss) (q.drop (ss.length + 1))) := by
  have h1 : p.length + (ss.length + 1) ≤ (p ++ q).length ∧
      ss.length + 1 ≤ (cstr ss srest).length := by
    rw [cstr_length]; simp; omega
  unfold memcpy
  rw [if_pos h1, List.take_left, List.drop_append]
  have h2 : List.take (ss.length + 1) (cstr ss srest) = ss ++ [0] := by
    unfold cstr
    rw [List.take_append]; simp
  rw [h2]; simp [cstr]

theorem first_test_iff (cs rest : List Nat) :
    (cs = [] ∨ ¬ (cstr cs rest).getD (cs.length - 1) 0 = SLASH) ↔ ¬ endsSlash cs := by
  unfold endsSlash
  by_cases hne : cs = []
  · subst hne; simp
  · rw [← getD_cstr_last_eq_iff hne rest]
    simp [hne]

theorem src_test_iff (ss srest : List Nat) :
    (cstr ss srest).getD 0 0 = SLASH ↔ startsSlash ss :=
  getD_cstr_head_eq_iff ss srest (by decide)

/-- The function on two C strings, with the string operations evaluated. -/
theorem fs_path_append_cstr {cs ss : List Nat} (rest srest : List Nat) {len : Nat}
    (hcs : 0 ∉ cs) (hss : 0 ∉ ss) (hlen : len ≠ 0)
    (haddr : Addressable (cstr cs rest) (cstr ss srest)) :
    fs_path_append (some (cstr cs rest)) (some (cstr ss srest)) len =
      if cs = [] ∧ ss = [] then
        some { ret := 1, errno := none, dst := some (cstr cs rest) }
      else if ¬ endsSlash cs then
        if cs.length + ss.length + 2 > len then
          some { ret := -1, errno := some Errno.ENAMETOOLONG, dst := some (cstr cs rest) }
        else if ¬ startsSlash ss then
          path_join (cs ++ SLASH :: rest) (cs.length + 1) (cstr ss srest) ss.length
        else path_join (cstr cs rest) cs.length (cstr ss srest) ss.length
      else if cs.length + ss.length + 1 > len then
        some { ret := -1, errno := some Errno.ENAMETOOLONG, dst := some (cstr cs rest) }
      else path_join (cstr cs rest) cs.length (cstr ss srest) ss.length := by
  unfold Addressable at haddr
  rw [cstr_length, cstr_length] at haddr
  have e1 : szAdd cs.length ss.length = cs.length + ss.length := szAdd_of_lt (by omega)
  have e2 : szAdd (cs.length + ss.length) 2 = cs.length + ss.length + 2 := szAdd_of_lt (by omega)
  have e3 : szAdd (cs.length + ss.length) 1 = cs.length + ss.length + 1 := szAdd_of_lt (by omega)
  have e4 : szAdd cs.length 1 = cs.length + 1 := szAdd_of_lt (by omega)
  unfold fs_path_append
  simp only [strlen_cstr hcs, strlen_cstr hss, if_neg hlen, first_test_iff, src_test_iff,
    e1, e2, e3, e4, storeByte_cstr, Option.some_bind, List.length_eq_zero, ne_eq]

/-- The end of the function when no separator is dropped: `src` and its
terminator are copied to offset `dlen`. -/
theorem path_join_keep (p q ss srest : List Nat)
    (hno : ¬ (0 < p.length ∧ (p ++ q).getD (p.length - 1) 0 = SLASH ∧
      (cstr ss srest).getD 0 0 = SLASH))
    (hfit : ss.length + 1 ≤ q.length) (hsmall : p.length + ss.length + 1 < 2147483648) :
    path_join (p ++ q) p.length (cstr ss srest) ss.length
      = some { ret := ((p.length + ss.length + 1 : Nat) : Int), errno := none,
               dst := some (cstr (p ++ ss) (q.drop (ss.length + 1))) } := by
  have e1 : szAdd ss.length 1 = ss.length + 1 := szAdd_of_lt (by omega)
  have e2 : szAdd p.length ss.length = p.length + ss.length := szAdd_of_lt (by omega)
  have e3 : szAdd (p.length + ss.length) 1 = p.length + ss.length + 1 := szAdd_of_lt (by omega)
  unfold path_join
  simp only [if_neg hno, e1, e2, e3, memcpy_cstr p q ss srest hfit, Option.map_some',
    toSsize_of_lt hsmall]

/-- The end of the function when `dst` ends with `'/'` and `src` starts with
one: `src` and its terminator are copied over the final `'/'` of `dst`. -/
theorem path_join_elide (ys rest ss srest : List Nat) (hs : startsSlash ss)
    (hfit : ss.length ≤ rest.length + 1) (hsmall : ys.length + ss.length + 1 < 2147483648) :
    path_join (cstr (ys ++ [SLASH]) rest) (ys ++ [SLASH]).length (cstr ss srest) ss.length
      = some { ret := ((ys.length + ss.length + 1 : Nat) : Int), errno := none,
               dst := some (cstr (ys ++ ss) (rest.drop (ss.length - 1))) } := by
  have hpos : 0 < ss.length := by
    unfold startsSlash at hs
    cases ss with
    | nil => simp at hs
    | cons b bs => simp
  have hyes : 0 < (ys ++ [SLASH]).length ∧
      (cstr (ys ++ [SLASH]) rest).getD ((ys ++ [SLASH]).length - 1) 0 = SLASH ∧
      (cstr ss srest).getD 0 0 = SLASH := by
    refine ⟨by simp, ?_, (src_test_iff ss srest).mpr hs⟩
    rw [getD_cstr_last (by simp)]; simp
  have hl : (ys ++ [SLASH]).length = ys.length + 1 := by simp
  have e0 : szSub (ys.length + 1) 1 = ys.length := by
    rw [szSub_one_of_pos (by omega) (by omega)]; omega
  have e1 : szAdd ss.length 1 = ss.length + 1 := szAdd_of_lt (by omega)
  have e2 : szAdd ys.length ss.length = ys.length + ss.length := szAdd_of_lt (by omega)
  have e3 : szAdd (ys.length + ss.length) 1 = ys.length + ss.length + 1 := szAdd_of_lt (by omega)
  have hmem : cstr (ys ++ [SLASH]) rest = ys ++ (SLASH :: 0 :: rest) := by simp [cstr]
  have hdrop : (SLASH :: 0 :: rest).drop (ss.length + 1) = rest.drop (ss.length - 1) := by
    obtain ⟨k, hk⟩ : ∃ k, ss.length = k + 1 := ⟨ss.length - 1, by omega⟩
    rw [hk]; simp
  unfold path_join
  rw [if_pos hyes]
  simp only [hl, e0, e1, e2, e3, hmem,
    memcpy_cstr ys (SLASH :: 0 :: rest) ss srest (by simp; omega), hdrop,
    toSsize_of_lt hsmall, Option.map_some']

theorem drop_cstr_add (cs rest : List Nat) (k : Nat) :
    (cstr cs rest).drop (cs.length + k + 1) = rest.drop k := by
  unfold cstr
  rw [Nat.add_assoc, List.drop_append]; simp

theorem not_endsSlash_nil : ¬ endsSlash [] := by simp [endsSlash]

theorem startsSlash_length_pos {ss : List Nat} (hs : startsSlash ss) : 0 < ss.length := by
  unfold startsSlash at hs
  cases ss with
  | nil => simp at hs
  | cons b bs => simp

/-- What `fs_path_append` does on two C strings: it fails when the space check
does, and otherwise leaves the joined path in `dst`, the bytes behind its
terminator untouched, and returns the length of the joined path plus one. -/
theorem fs_path_append_eval {cs ss : List Nat} (rest srest : List Nat) {len : Nat}
    (hcs : 0 ∉ cs) (hss : 0 ∉ ss) (hlen : len ≠ 0)
    (haddr : Addressable (cstr cs rest) (cstr ss srest))
    (hroom : ¬ tooLong cs ss len → (joined cs ss).length + 1 ≤ (cstr cs rest).length) :
    fs_path_append (some (cstr cs rest)) (some (cstr ss srest)) len =
      if tooLong cs ss len then
        some { ret := -1, errno := some Errno.ENAMETOOLONG, dst := some (cstr cs rest) }
      else
        some { ret := (((joined cs ss).length + 1 : Nat) : Int), errno := none,
               dst := some (cstr (joined cs ss)
                 ((cstr cs rest).drop ((joined cs ss).length + 1))) } := by
  rw [fs_path_append_cstr rest srest hcs hss hlen haddr]
  have haddr2 := haddr
  unfold Addressable at haddr2
  rw [cstr_length, cstr_length] at haddr2
  rw [cstr_length] at hroom
  by_cases hboth : cs = [] ∧ ss = []
  · have hnt : ¬ tooLong cs ss len := fun h => h.1 hboth
    rw [if_pos hboth, if_neg hnt]
    obtain ⟨h1, h2⟩ := hboth
    subst h1; subst h2
    simp [joined, cstr]
  · rw [if_neg hboth]
    by_cases he : endsSlash cs
    · rw [if_neg (not_not.mpr he)]
      by_cases hchk : cs.length + ss.length + 1 > len
      · have ht : tooLong cs ss len := ⟨hboth, by rw [if_neg (not_not.mpr he)]; exact hchk⟩
        rw [if_pos hchk, if_pos ht]
      · have hnt : ¬ tooLong cs ss len := fun h => by
          have := h.2; rw [if_neg (not_not.mpr he)] at this; exact hchk this
        rw [if_neg hchk, if_neg hnt]
        have hroom2 := hroom hnt
        by_cases hs : startsSlash ss
        · obtain ⟨ys, hys⟩ := List.getLast?_eq_some_iff.mp he
          have hj : joined cs ss = ys ++ ss := by
            unfold joined
            rw [if_neg hboth, if_neg (fun h => h.1 he), if_pos ⟨he, hs⟩, hys]
            simp
          have hcl : cs.length = ys.length + 1 := by rw [hys]; simp
          rw [hj] at hroom2 ⊢
          simp only [List.length_append] at hroom2 ⊢
          have hpos := startsSlash_length_pos hs
          have hd : (cstr cs rest).drop (ys.length + ss.length + 1) = rest.drop (ss.length - 1) := by
            have : ys.length + ss.length + 1 = cs.length + (ss.length - 1) + 1 := by omega
            rw [this, drop_cstr_add]
          rw [hd]
          subst hys
          rw [path_join_elide ys rest ss srest hs (by omega) (by omega)]
        · have hj : joined cs ss = cs ++ ss := by
            unfold joined
            rw [if_neg hboth, if_neg (fun h => h.1 he), if_neg (fun h => hs h.2)]
          rw [hj] at hroom2 ⊢
          simp only [List.length_append] at hroom2 ⊢
          have hno : ¬ (0 < cs.length ∧ (cs ++ 0 :: rest).getD (cs.length - 1) 0 = SLASH ∧
              (cstr ss srest).getD 0 0 = SLASH) :=
            fun h => hs ((src_test_iff ss srest).mp h.2.2)
          have := path_join_keep cs (0 :: rest) ss srest hno (by simp; omega) (by omega)
          rw [drop_cstr_add]
          simpa [cstr] using this
    · rw [if_pos he]
      by_cases hchk : cs.length + ss.length + 2 > len
      · have ht : tooLong cs ss len := ⟨hboth, by rw [if_pos he]; exact hchk⟩
        rw [if_pos hchk, if_pos ht]
      · have hnt : ¬ tooLong cs ss len := fun h => by
          have := h.2; rw [if_pos he] at this; exact hchk this
        rw [if_neg hchk, if_neg hnt]
        have hroom2 := hroom hnt
        by_cases hs : startsSlash ss
        · rw [if_neg (not_not.mpr hs)]
          have hj : joined cs ss = cs ++ ss := by
            unfold joined
            rw [if_neg hboth, if_neg (fun h => h.2 hs), if_neg (fun h => he h.1)]
          rw [hj] at hroom2 ⊢
          simp only [List.length_append] at hroom2 ⊢
          have hno : ¬ (0 < cs.length ∧ (cs ++ 0 :: rest).getD (cs.length - 1) 0 = SLASH ∧
              (cstr ss srest).getD 0 0 = SLASH) := by
            intro h
            have hne : cs ≠ [] := List.length_pos.mp h.1
            exact he ((getD_cstr_last_eq_iff hne rest SLASH).mp h.2.1)
          have := path_join_keep cs (0 :: rest) ss srest hno (by simp; omega) (by omega)
          rw [drop_cstr_add]
          simpa [cstr] using this
        · rw [if_pos hs]
          have hj : joined cs ss = cs ++ SLASH :: ss := by
            unfold joined
            rw [if_neg hboth, if_pos ⟨he, hs⟩]
          rw [hj] at hroom2 ⊢
          simp only [List.length_append, List.length_cons] at hroom2 ⊢
          have hno : ¬ (0 < (cs ++ [SLASH]).length ∧
              ((cs ++ [SLASH]) ++ rest).getD ((cs ++ [SLASH]).length - 1) 0 = SLASH ∧
              (cstr ss srest).getD 0 0 = SLASH) :=
            fun h => hs ((src_test_iff ss srest).mp h.2.2)
          have := path_join_keep (cs ++ [SLASH]) rest ss srest hno (by omega)
            (by simp; omega)
          have hd : (cstr cs rest).drop (cs.length + (ss.length + 1) + 1)
              = rest.drop (ss.length + 1) := drop_cstr_add cs rest (ss.length + 1)
          rw [hd]
          simpa [cstr, Nat.add_assoc, Nat.add_comm, Nat.add_left_comm] using this

theorem joined_length (cs ss : List Nat) :
    (joined cs ss).length =
      if cs = [] ∧ ss = [] then 0
      else if ¬ endsSlash cs ∧ ¬ startsSlash ss then cs.length + ss.length + 1
      else if endsSlash cs ∧ startsSlash ss then cs.length - 1 + ss.length
      else cs.length + ss.length := by
  unfold joined
  split_ifs
  · simp
  · simp; omega
  · simp
  · simp

theorem zero_not_mem_joined {cs ss : List Nat} (hcs : 0 ∉ cs) (hss : 0 ∉ ss) :
    0 ∉ joined cs ss := by
  unfold joined
  split_ifs
  · simp
  · simp [hcs, hss, SLASH]
  · intro h
    rcases List.mem_append.mp h with h | h
    · exact hcs (List.dropLast_subset cs h)
    · exact hss h
  · simp [hcs, hss]

/-- A memory with a terminator is a C string: its characters, the terminator
and the bytes behind it. -/
theorem cstr_of_strlen {m : List Nat} {n : Nat} (h : strlen m = some n) :
    m = cstr (chars m) (m.drop (n + 1)) ∧ 0 ∉ chars m ∧ (chars m).length = n := by
  induction m generalizing n with
  | nil => simp [strlen] at h
  | cons b bs ih =>
    by_cases hb : b = 0
    · subst hb
      simp [strlen] at h
      subst h
      simp [chars, cstr]
    · simp only [strlen, if_neg hb, Option.map_eq_some'] at h
      obtain ⟨k, hk, hkn⟩ := h
      obtain ⟨h1, h2, h3⟩ := ih hk
      subst hkn
      refine ⟨?_, ?_, ?_⟩
      · simp only [chars, if_neg hb, List.drop_succ_cons, cstr, List.cons_append]
        exact congrArg (b :: ·) h1
      · simp only [chars, if_neg hb, List.mem_cons, not_or]
        exact ⟨fun e => hb e.symm, h2⟩
      · simp [chars, hb, h3]

/-- Writing a C string of `j.length + 1` bytes at the start of a memory `d`
leaves every byte from index `j.length + 1` on as it was. -/
theorem getElem?_cstr_drop (j d : List Nat) (i : Nat) (hi : j.length + 1 ≤ i) :
    (cstr j (d.drop (j.length + 1)))[i]? = d[i]? := by
  unfold cstr
  rw [List.getElem?_append_right (by omega)]
  obtain ⟨k, hk⟩ : ∃ k, i - j.length = k + 1 := ⟨i - j.length - 1, by omega⟩
  rw [hk, List.getElem?_cons_succ, List.getElem?_drop]
  congr 1; omega

theorem getElem?_cstr_length (j t : List Nat) : (cstr j t)[j.length]? = some 0 := by
  unfold cstr
  rw [List.getElem?_append_right (by omega)]; simp

theorem length_cstr_drop (j d : List Nat) (h : j.length + 1 ≤ d.length) :
    (cstr j (d.drop (j.length + 1))).length = d.length := by
  rw [cstr_length, List.length_drop]; omega

/-- Two strings that are not both empty join with exactly one separator at
the junction. -/
theorem joined_eq_normal {cs ss : List Nat} (hne : ¬ (cs = [] ∧ ss = [])) :
    joined cs ss = dropTrailingSlash cs ++ SLASH :: dropLeadingSlash ss := by
  unfold joined dropTrailingSlash dropLeadingSlash
  rw [if_neg hne]
  by_cases he : endsSlash cs
  · obtain ⟨ys, hys⟩ := List.getLast?_eq_some_iff.mp he
    by_cases hs : startsSlash ss
    · rw [if_neg (fun h => h.1 he), if_pos ⟨he, hs⟩, if_pos he, if_pos hs]
      unfold startsSlash at hs
      cases ss with
      | nil => simp at hs
      | cons b bs =>
        simp only [List.head?_cons, Option.some.injEq] at hs
        subst hs; simp
    · rw [if_neg (fun h => h.1 he), if_neg (fun h => hs h.2), if_pos he, if_neg hs]
      subst hys; simp
  · by_cases hs : startsSlash ss
    · rw [if_neg (fun h => h.2 hs), if_neg (fun h => he h.1), if_neg he, if_pos hs]
      unfold startsSlash at hs
      cases ss with
      | nil => simp at hs
      | cons b bs =>
        simp only [List.head?_cons, Option.some.injEq] at hs
        subst hs; simp
    · rw [if_pos ⟨he, hs⟩, if_neg he, if_neg hs]

/-! ## Lemmas on the file utilities -/

theorem wrapSsize_of_range {x : Int} (h0 : -2147483648 ≤ x) (h1 : x ≤ 2147483647) :
    wrapSsize x = x := by
  unfold wrapSsize; omega

theorem wrapSsize_le (x : Int) : wrapSsize x ≤ 2147483647 := by
  unfold wrapSsize; omega

/-- What the loop of `fs_copy` leaves when it is defined, whatever the kernel
does: `total` has not gone down and is a value of an `ssize_t`, and the calls
made are `fs_read`s and `fs_write`s. -/
theorem fs_copy_loop_sound {σ : Type} (K : Kernel σ) (fs fd : Int) :
    ∀ (fuel : Nat) (left total : Int) (buff : Option Block) (s : σ) (tr : List Call)
      (v : CopyVars σ), total ≤ SSIZE_MAX →
      fs_copy_loop K fs fd fuel left total buff s tr = some v →
      total ≤ v.total ∧ v.total ≤ SSIZE_MAX ∧
        ∃ evs, v.trace = tr ++ evs ∧ ∀ e ∈ evs, e.isTransfer = true := by
  intro fuel
  induction fuel with
  | zero =>
    intro left total buff s tr v hmax h
    by_cases hl : left > 0
    · simp [fs_copy_loop, hl] at h
    · simp only [fs_copy_loop, if_neg hl, Option.some.injEq] at h
      subst h
      exact ⟨Int.le_refl _, hmax, [], by simp, by simp⟩
  | succ n ih =>
    intro left total buff s tr v hmax h
    by_cases hl : left > 0
    · by_cases hr : (K.fs_read s fs buff 0 65536).1 ≤ 0
      · simp only [fs_copy_loop, if_pos hl, if_pos hr, Option.some.injEq] at h
        subst h
        refine ⟨Int.le_refl _, hmax, [Call.fs_read fs (buff.map fun _ => 0) 65536], rfl, ?_⟩
        intro e he
        rw [List.mem_singleton] at he
        subst he; rfl
      · by_cases ho : total + (K.fs_read s fs buff 0 65536).1 > SSIZE_MAX
        · simp [fs_copy_loop, hl, hr, ho] at h
        · simp only [fs_copy_loop, if_pos hl, if_neg hr, if_neg ho] at h
          obtain ⟨h1, h2, evs, h3, h4⟩ := ih _ _ _ _ _ v (by omega) h
          refine ⟨by omega, h2,
            [Call.fs_read fs (buff.map fun _ => 0) 65536,
              Call.fs_write fd ((K.fs_read s fs buff 0 65536).2.1.map fun _ => 0)
                (toSize ((K.fs_read s fs buff 0 65536).1))] ++ evs, ?_, ?_⟩
          · rw [h3]; simp
          · intro e he
            rcases List.mem_append.mp he with h5 | h5
            · simp only [List.mem_cons, List.mem_singleton, List.not_mem_nil, or_false] at h5
              rcases h5 with h5 | h5 <;> (subst h5; rfl)
            · exact h4 e h5
    · simp only [fs_copy_loop, if_neg hl, Option.some.injEq] at h
      subst h
      exact ⟨Int.le_refl _, hmax, [], by simp, by simp⟩

/-- The fuel of the loop of `fs_copy` does not matter once it is at least
`left`: every iteration takes at least one byte off `left`, so the loop never
stops for lack of fuel, and `none` stands for the overflow of `total` only. -/
theorem fs_copy_loop_fuel {σ : Type} (K : Kernel σ) (fs fd : Int) :
    ∀ (fuel fuel' : Nat) (left total : Int) (buff : Option Block) (s : σ) (tr : List Call),
      left ≤ (fuel : Int) → left ≤ (fuel' : Int) →
      fs_copy_loop K fs fd fuel left total buff s tr
        = fs_copy_loop K fs fd fuel' left total buff s tr := by
  intro fuel
  induction fuel with
  | zero =>
    intro fuel' left total buff s tr h _
    have hl : ¬ left > 0 := by
      have : left ≤ 0 := by exact_mod_cast h
      omega
    cases fuel' with
    | zero => rfl
    | succ m => simp only [fs_copy_loop, if_neg hl]
  | succ n ih =>
    intro fuel' left total buff s tr h h'
    cases fuel' with
    | zero =>
      have hl : ¬ left > 0 := by
        have : left ≤ 0 := by exact_mod_cast h'
        omega
      simp only [fs_copy_loop, if_neg hl]
    | succ m =>
      by_cases hl : left > 0
      · by_cases hr : (K.fs_read s fs buff 0 65536).1 ≤ 0
        · simp only [fs_copy_loop, if_pos hl, if_pos hr]
        · by_cases ho : total + (K.fs_read s fs buff 0 65536).1 > SSIZE_MAX
          · simp only [fs_copy_loop, if_pos hl, if_neg hr, if_pos ho]
          · simp only [fs_copy_loop, if_pos hl, if_neg hr, if_neg ho]
            exact ih m _ _ _ _ _ (by push_cast at h; omega) (by push_cast at h'; omega)
      · simp only [fs_copy_loop, if_neg hl]

/-- The loop of `fs_copy` is defined, and ends within `left` iterations, for a
kernel whose `fs_read` of 65536 bytes never returns more than 65536, when the
size of the file leaves room for one buffer below the largest `ssize_t`. -/
theorem fs_copy_loop_defined {σ : Type} (K : Kernel σ) (fs fd : Int) (s0 : σ) (N0 : Int)
    (hN0 : N0 + 65535 ≤ SSIZE_MAX)
    (hle : ∀ (s : σ), Kernel.Reach K s0 s → ∀ (h : Int) (blk : Option Block),
      (K.fs_read s h blk 0 65536).1 ≤ 65536) :
    ∀ (fuel : Nat) (left total : Int) (buff : Option Block) (s : σ) (tr : List Call),
      Kernel.Reach K s0 s → left + total = N0 → left ≤ (fuel : Int) →
      ∃ v, fs_copy_loop K fs fd fuel left total buff s tr = some v := by
  unfold SSIZE_MAX at hN0
  intro fuel
  induction fuel with
  | zero =>
    intro left total buff s tr _ _ hfuel
    have hl : ¬ left > 0 := by
      have : left ≤ 0 := by exact_mod_cast hfuel
      omega
    simp only [fs_copy_loop, if_neg hl]
    exact ⟨_, rfl⟩
  | succ n ih =>
    intro left total buff s tr hreach hsum hfuel
    by_cases hl : left > 0
    · by_cases hr : (K.fs_read s fs buff 0 65536).1 ≤ 0
      · simp only [fs_copy_loop, if_pos hl, if_pos hr]
        exact ⟨_, rfl⟩
      · have hr2 := hle s hreach fs buff
        have ho : ¬ total + (K.fs_read s fs buff 0 65536).1 > SSIZE_MAX := by
          unfold SSIZE_MAX; omega
        obtain ⟨v, hv⟩ := ih (left - (K.fs_read s fs buff 0 65536).1)
          (total + (K.fs_read s fs buff 0 65536).1)
          (K.fs_read s fs buff 0 65536).2.1
          (K.fs_write (K.fs_read s fs buff 0 65536).2.2 fd (K.fs_read s fs buff 0 65536).2.1
            (toSize ((K.fs_read s fs buff 0 65536).1))).2
          (tr ++ [Call.fs_read fs (buff.map fun _ => 0) 65536] ++
            [Call.fs_write fd ((K.fs_read s fs buff 0 65536).2.1.map fun _ => 0)
              (toSize ((K.fs_read s fs buff 0 65536).1))])
          (Kernel.Reach.fs_write fd _ _ (Kernel.Reach.fs_read fs buff 0 65536 hreach))
          (by omega) (by push_cast at hfuel; omega)
        refine ⟨v, ?_⟩
        simp only [fs_copy_loop, if_pos hl, if_neg hr, if_neg ho]
        exact hv
    · simp only [fs_copy_loop, if_neg hl]
      exact ⟨_, rfl⟩

/-- The loop of `fs_load` ends within `left` iterations, whatever the kernel
does. It never lowers `total` and makes no call but `fs_read`. -/
theorem fs_load_loop_some {σ : Type} (K : Kernel σ) (f : Int) :
    ∀ (fuel : Nat) (left total : Int) (out : Nat) (data : Option Block) (s : σ)
      (tr : List Call), left ≤ (fuel : Int) →
      ∃ v evs, fs_load_loop K f fuel left total out data s tr = some v ∧
        total ≤ v.total ∧ v.trace = tr ++ evs ∧ ∀ e ∈ evs, e.isTransfer = true := by
  intro fuel
  induction fuel with
  | zero =>
    intro left total out data s tr h
    have hl : ¬ left > 0 := by
      have : left ≤ 0 := by exact_mod_cast h
      omega
    refine ⟨{ left := left, total := total, out := out, data := data, st := s, trace := tr },
      [], ?_, Int.le_refl _, by simp, by simp⟩
    simp [fs_load_loop, hl]
  | succ n ih =>
    intro left total out data s tr h
    by_cases hl : left > 0
    · by_cases hr : (K.fs_read s f data out (toSize left)).1 ≤ 0
      · refine ⟨{ left := left, total := total, out := out,
                  data := (K.fs_read s f data out (toSize left)).2.1,
                  st := (K.fs_read s f data out (toSize left)).2.2,
                  trace := tr ++ [Call.fs_read f (data.map fun _ => out) (toSize left)] },
          [Call.fs_read f (data.map fun _ => out) (toSize left)], ?_, Int.le_refl _, rfl, ?_⟩
        · simp [fs_load_loop, hl, hr]
        · intro e he
          rw [List.mem_singleton] at he
          subst he; rfl
      · have hle : left - (K.fs_read s f data out (toSize left)).1 ≤ (n : Int) := by
          push_cast at h; omega
        obtain ⟨v, evs, hv, ht, htr, htf⟩ :=
          ih (left - (K.fs_read s f data out (toSize left)).1)
            (total + (K.fs_read s f data out (toSize left)).1)
            (out + (K.fs_read s f data out (toSize left)).1.toNat)
            (K.fs_read s f data out (toSize left)).2.1
            (K.fs_read s f data out (toSize left)).2.2
            (tr ++ [Call.fs_read f (data.map fun _ => out) (toSize left)]) hle
        refine ⟨v, [Call.fs_read f (data.map fun _ => out) (toSize left)] ++ evs, ?_,
          by omega, ?_, ?_⟩
        · simp only [fs_load_loop, if_pos hl, if_neg hr]
          exact hv
        · rw [htr]; simp
        · intro e he
          rcases List.mem_append.mp he with h1 | h1
          · rw [List.mem_singleton] at h1
            subst h1; rfl
          · exact htf e h1
    · refine ⟨{ left := left, total := total, out := out, data := data, st := s, trace := tr },
        [], ?_, Int.le_refl _, by simp, by simp⟩
      simp [fs_load_loop, hl]

theorem count_free_of_isTransfer (evs : List Call) (htf : ∀ e ∈ evs, e.isTransfer = true) :
    evs.count Call.free = 0 := by
  rw [List.count_eq_zero]
  intro hm
  have := htf _ hm
  simp [Call.isTransfer] at this

theorem count_close_of_isTransfer (h : Int) (evs : List Call) (htf : ∀ e ∈ evs, e.isTransfer = true) :
    evs.count (Call.fs_close h) = 0 := by
  rw [List.count_eq_zero]
  intro hm
  have := htf _ hm
  simp [Call.isTransfer] at this

/-- The shape of a defined run of `fs_copy` in which both files open: the value
returned is a non-negative `ssize_t`, and apart from the reads and writes of the
loop the calls are the two opens, `fs_total`, `malloc`, `free` and the two
closes. -/
theorem fs_copy_both_open {σ : Type} (K : Kernel σ) (s : σ) (src dst : String)
    (h1 : (K.fs_open s src [OFlag.O_RDONLY]).1 ≠ K.FILEHND_INVALID)
    (h2 : (K.fs_open (K.fs_open s src [OFlag.O_RDONLY]).2 dst
      [OFlag.O_WRONLY, OFlag.O_TRUNC, OFlag.O_CREAT]).1 ≠ K.FILEHND_INVALID)
    (r : CopyOut σ) (hr : fs_copy K s src dst = some r) :
    0 ≤ r.ret ∧ r.ret ≤ SSIZE_MAX ∧ ∃ evs, (∀ e ∈ evs, e.isTransfer = true) ∧
      r.trace = [Call.fs_open src [OFlag.O_RDONLY],
          Call.fs_open dst [OFlag.O_WRONLY, OFlag.O_TRUNC, OFlag.O_CREAT],
          Call.fs_total (K.fs_open s src [OFlag.O_RDONLY]).1, Call.malloc 65536] ++ evs ++
        [Call.free, Call.fs_close (K.fs_open s src [OFlag.O_RDONLY]).1,
          Call.fs_close (K.fs_open (K.fs_open s src [OFlag.O_RDONLY]).2 dst
            [OFlag.O_WRONLY, OFlag.O_TRUNC, OFlag.O_CREAT]).1] := by
  simp only [fs_copy, if_neg h1, if_neg h2, Option.map_eq_some'] at hr
  obtain ⟨v, hv, hrv⟩ := hr
  obtain ⟨ht, hmax, evs, htr, htf⟩ := fs_copy_loop_sound K _ _ _ _ _ _ _ _ v
    (by unfold SSIZE_MAX; omega) hv
  subst hrv
  exact ⟨ht, hmax, evs, htf, by simp only [htr]⟩

/-- A run of `fs_copy` in which both files open is defined for a kernel whose
`fs_read` of 65536 bytes never returns more than 65536, when the size reported
leaves room for one buffer below the largest `ssize_t`. -/
theorem fs_copy_defined {σ : Type} (K : Kernel σ) (s : σ) (src dst : String)
    (h1 : (K.fs_open s src [OFlag.O_RDONLY]).1 ≠ K.FILEHND_INVALID)
    (h2 : (K.fs_open (K.fs_open s src [OFlag.O_RDONLY]).2 dst
      [OFlag.O_WRONLY, OFlag.O_TRUNC, OFlag.O_CREAT]).1 ≠ K.FILEHND_INVALID)
    (hsize : wrapSsize (K.fs_total (K.fs_open (K.fs_open s src [OFlag.O_RDONLY]).2 dst
      [OFlag.O_WRONLY, OFlag.O_TRUNC, OFlag.O_CREAT]).2
      (K.fs_open s src [OFlag.O_RDONLY]).1).1 + 65535 ≤ SSIZE_MAX)
    (hle : ∀ (s' : σ), Kernel.Reach K s s' → ∀ (h : Int) (blk : Option Block),
      (K.fs_read s' h blk 0 65536).1 ≤ 65536) :
    ∃ r, fs_copy K s src dst = some r := by
  obtain ⟨v, hv⟩ := fs_copy_loop_defined K (K.fs_open s src [OFlag.O_RDONLY]).1
    (K.fs_open (K.fs_open s src [OFlag.O_RDONLY]).2 dst
      [OFlag.O_WRONLY, OFlag.O_TRUNC, OFlag.O_CREAT]).1 s _ hsize hle
    (wrapSsize (K.fs_total (K.fs_open (K.fs_open s src [OFlag.O_RDONLY]).2 dst
      [OFlag.O_WRONLY, OFlag.O_TRUNC, OFlag.O_CREAT]).2
      (K.fs_open s src [OFlag.O_RDONLY]).1).1).toNat
    (wrapSsize (K.fs_total (K.fs_open (K.fs_open s src [OFlag.O_RDONLY]).2 dst
      [OFlag.O_WRONLY, OFlag.O_TRUNC, OFlag.O_CREAT]).2
      (K.fs_open s src [OFlag.O_RDONLY]).1).1) 0
    (K.malloc (K.fs_total (K.fs_open (K.fs_open s src [OFlag.O_RDONLY]).2 dst
      [OFlag.O_WRONLY, OFlag.O_TRUNC, OFlag.O_CREAT]).2
      (K.fs_open s src [OFlag.O_RDONLY]).1).2 65536).1
    (K.malloc (K.fs_total (K.fs_open (K.fs_open s src [OFlag.O_RDONLY]).2 dst
      [OFlag.O_WRONLY, OFlag.O_TRUNC, OFlag.O_CREAT]).2
      (K.fs_open s src [OFlag.O_RDONLY]).1).2 65536).2
    [Call.fs_open src [OFlag.O_RDONLY],
      Call.fs_open dst [OFlag.O_WRONLY, OFlag.O_TRUNC, OFlag.O_CREAT],
      Call.fs_total (K.fs_open s src [OFlag.O_RDONLY]).1, Call.malloc 65536]
    (Kernel.Reach.malloc 65536 (Kernel.Reach.fs_total _
      (Kernel.Reach.fs_open dst _ (Kernel.Reach.fs_open src _ Kernel.Reach.start))))
    (by omega) (Int.self_le_toNat _)
  simp only [fs_copy, if_neg h1, if_neg h2, hv, Option.map_some']
  exact ⟨_, rfl⟩

theorem toSize_of_nonneg_lt {x : Int} (h0 : 0 ≤ x) (h1 : x < 4294967296) :
    toSize x = x.toNat := by
  unfold toSize; omega

/-- The invariant of the loop of `fs_load`, for a kernel whose `fs_read` never
returns more than was asked for. From variables with `left + total = N`,
`0 ≤ left` and `out = total`, the loop ends with variables of the same kind; it
makes at most `left` calls, each an `fs_read` of `cnt ≥ 1` bytes into offset
`off` of the buffer with `off + cnt = N`. -/
theorem fs_load_loop_invariant {σ : Type} (K : Kernel σ) (f : Int) (N : Nat)
    (hfit : N < 2147483648) (s0 : σ)
    (hle : ∀ (s : σ), Kernel.Reach K s0 s → ∀ (h : Int) (blk : Option Block) (off cnt : Nat),
      (K.fs_read s h blk off cnt).1 ≤ (cnt : Int)) :
    ∀ (fuel : Nat) (left total : Int) (out : Nat) (data : Option Block) (s : σ)
      (tr : List Call), Kernel.Reach K s0 s →
      0 ≤ left → left + total = (N : Int) → (out : Int) = total →
      left ≤ (fuel : Int) →
      ∃ v evs, fs_load_loop K f fuel left total out data s tr = some v ∧
        v.trace = tr ++ evs ∧ 0 ≤ v.left ∧ v.left + v.total = (N : Int) ∧
        (v.out : Int) = v.total ∧ total ≤ v.total ∧ (evs.length : Int) ≤ left ∧
        ∀ e ∈ evs, ∃ b cnt, e = Call.fs_read f b cnt ∧ 1 ≤ cnt ∧
          ∀ off, b = some off → (total : Int) ≤ off ∧ off + cnt = N := by
  intro fuel
  induction fuel with
  | zero =>
    intro left total out data s tr hreach h0 hsum hout hfuel
    have hl : ¬ left > 0 := by
      have : left ≤ 0 := by exact_mod_cast hfuel
      omega
    refine ⟨{ left := left, total := total, out := out, data := data, st := s, trace := tr },
      [], ?_, by simp, h0, hsum, hout, Int.le_refl _, by simpa using h0, by simp⟩
    simp [fs_load_loop, hl]
  | succ n ih =>
    intro left total out data s tr hreach h0 hsum hout hfuel
    by_cases hl : left > 0
    · have hsz : toSize left = left.toNat := toSize_of_nonneg_lt h0 (by omega)
      have hev : ∀ e ∈ [Call.fs_read f (data.map fun _ => out) (toSize left)],
          ∃ b cnt, e = Call.fs_read f b cnt ∧ 1 ≤ cnt ∧
            ∀ off, b = some off → (total : Int) ≤ off ∧ off + cnt = N := by
        intro e he
        rw [List.mem_singleton] at he
        refine ⟨_, _, he, by rw [hsz]; omega, ?_⟩
        intro off hoff
        cases data with
        | none => simp at hoff
        | some blk =>
          simp only [Option.map_some', Option.some.injEq] at hoff
          subst hoff
          rw [hsz]
          constructor <;> omega
      have hr := hle s hreach f data out (toSize left)
      by_cases hrn : (K.fs_read s f data out (toSize left)).1 ≤ 0
      · refine ⟨{ left := left, total := total, out := out,
                  data := (K.fs_read s f data out (toSize left)).2.1,
                  st := (K.fs_read s f data out (toSize left)).2.2,
                  trace := tr ++ [Call.fs_read f (data.map fun _ => out) (toSize left)] },
          [Call.fs_read f (data.map fun _ => out) (toSize left)], ?_, rfl, h0, hsum, hout,
          Int.le_refl _, ?_, hev⟩
        · simp [fs_load_loop, hl, hrn]
        · simp only [List.length_singleton, Nat.cast_one]; omega
      · rw [hsz] at hr
        obtain ⟨v, evs, hv, htr, hv0, hvsum, hvout, hvt, hvlen, hvev⟩ :=
          ih (left - (K.fs_read s f data out (toSize left)).1)
            (total + (K.fs_read s f data out (toSize left)).1)
            (out + (K.fs_read s f data out (toSize left)).1.toNat)
            (K.fs_read s f data out (toSize left)).2.1
            (K.fs_read s f data out (toSize left)).2.2
            (tr ++ [Call.fs_read f (data.map fun _ => out) (toSize left)])
            (Kernel.Reach.fs_read f data out (toSize left) hreach)
            (by rw [hsz]; omega) (by omega) (by push_cast; omega)
            (by push_cast at hfuel; omega)
        refine ⟨v, [Call.fs_read f (data.map fun _ => out) (toSize left)] ++ evs, ?_, ?_,
          hv0, hvsum, hvout, by omega, ?_, ?_⟩
        · simp only [fs_load_loop, if_pos hl, if_neg hrn]
          exact hv
        · rw [htr]; simp
        · simp only [List.length_append, List.length_singleton, Nat.cast_add, Nat.cast_one]
          omega
        · intro e he
          rcases List.mem_append.mp he with h1 | h1
          · exact hev e h1
          · obtain ⟨b, cnt, h2, h3, h4⟩ := hvev e h1
            refine ⟨b, cnt, h2, h3, fun off hoff => ?_⟩
            obtain ⟨h5, h6⟩ := h4 off hoff
            exact ⟨by omega, h6⟩
    · refine ⟨{ left := left, total := total, out := out, data := data, st := s, trace := tr },
        [], ?_, by simp, h0, hsum, hout, Int.le_refl _, by simpa using h0, by simp⟩
      simp [fs_load_loop, hl]

/-! ### Blocks -/

theorem Block.load_length (b : Block) (off n : Nat) : (b.load off n).length = n := by
  simp [Block.load]

/-- Loading what has just been stored. -/
theorem Block.load_store_same (b : Block) (off : Nat) (data : List Nat) :
    (b.store off data).load off data.length = data := by
  apply List.ext_getElem
  · simp [Block.load]
  · intro i h1 h2
    have hc : off ≤ off + i ∧ off + i < off + data.length := ⟨by omega, by omega⟩
    simp only [Block.load, Block.store, List.getElem_map, List.getElem_range, if_pos hc]
    rw [List.getD_eq_getElem _ _ (by omega)]
    simp

/-- A store at offset `p` leaves the first `p` bytes as they were. -/
theorem Block.load_store_below (b : Block) (p : Nat) (data : List Nat) :
    (b.store p data).load 0 p = b.load 0 p := by
  apply List.ext_getElem
  · simp [Block.load]
  · intro i h1 h2
    have hi : i < p := by simpa [Block.load] using h1
    have hc : ¬ (p ≤ 0 + i ∧ 0 + i < p + data.length) := by omega
    simp only [Block.load, Block.store, List.getElem_map, List.getElem_range, if_neg hc]

theorem Block.load_add (b : Block) (n k : Nat) :
    b.load 0 (n + k) = b.load 0 n ++ b.load n k := by
  simp [Block.load, List.range_add, List.map_map, Function.comp_def]

/-- After a store of `data` at offset `p`, the first `p + data.length` bytes are
the first `p` bytes of before followed by `data`. -/
theorem Block.load_store_append (b : Block) (p : Nat) (data : List Nat) :
    (b.store p data).load 0 (p + data.length) = b.load 0 p ++ data := by
  rw [Block.load_add, Block.load_store_below, Block.load_store_same]

theorem toSize_of_pos_le {r : Int} (h0 : 0 < r) (h1 : r < 4294967296) : toSize r = r.toNat := by
  unfold toSize; omega

theorem take_drop_add (c : List Nat) (p a k : Nat) :
    (c.drop p).take a ++ (c.drop (p + a)).take k = (c.drop p).take (a + k) := by
  rw [List.take_add, List.drop_drop]

/-! ### The simulated kernel -/

theorem sim_read_pos (s : Sim) (b : Block) (off cnt : Nat) (h : 0 < s.answer s.pos cnt) :
    simKernel.fs_read s SRC_HND (some b) off cnt =
      (s.answer s.pos cnt,
        some (b.store off ((s.content.drop s.pos).take (s.answer s.pos cnt).toNat)),
        { s with pos := s.pos + ((s.content.drop s.pos).take (s.answer s.pos cnt).toNat).length }) := by
  simp [simKernel, h]

theorem sim_read_nonpos (s : Sim) (b : Block) (off cnt : Nat) (h : s.answer s.pos cnt ≤ 0) :
    simKernel.fs_read s SRC_HND (some b) off cnt = (s.answer s.pos cnt, some b, s) := by
  have h' : ¬ 0 < s.answer s.pos cnt := by omega
  simp [simKernel, h']

theorem sim_write_full (s : Sim) (b : Block) (cnt : Nat) (hc : 0 < cnt)
    (h : s.accept s.dest.length cnt = (cnt : Int)) :
    simKernel.fs_write s DST_HND (some b) cnt =
      ((cnt : Int), { s with dest := s.dest ++ b.load 0 cnt }) := by
  have h' : (0 : Int) < (cnt : Int) := by exact_mod_cast hc
  simp [simKernel, h, h', Block.load_length]

/-- The loop of `fs_copy` in the simulated world, the source delivering chunks
up to the position `stop` and writes being accepted in full: it adds the bytes
from the current position to `stop` to `total` and to the destination. It stops
at `stop` because `left` is used up or because the read there yields `≤ 0`. -/
theorem sim_copy_loop (c : List Nat) (ans : Nat → Nat → Int) (stop : Nat)
    (hstop : stop ≤ c.length)
    (hread : ∀ p, p < stop → 1 ≤ ans p 65536 ∧ ans p 65536 ≤ 65536 ∧
      ans p 65536 ≤ ((stop - p : Nat) : Int)) :
    ∀ (fuel : Nat) (s : Sim) (left total : Int) (b : Block) (tr : List Call),
      s.content = c → s.answer = ans → (∀ n k, s.accept n k = (k : Int)) →
      s.pos ≤ stop → ((stop - s.pos : Nat) : Int) ≤ left → left ≤ (fuel : Int) →
      (left ≤ ((stop - s.pos : Nat) : Int) ∨ ans stop 65536 ≤ 0) →
      total + ((stop - s.pos : Nat) : Int) ≤ SSIZE_MAX →
      ∃ v, fs_copy_loop simKernel SRC_HND DST_HND fuel left total (some b) s tr = some v ∧
        v.total = total + ((stop - s.pos : Nat) : Int) ∧
        v.st.dest = s.dest ++ (c.drop s.pos).take (stop - s.pos) ∧
        v.st.live = s.live ∧ ∃ b', v.buff = some b' ∧ b'.addr = b.addr := by
  intro fuel
  induction fuel with
  | zero =>
    intro s left total b tr _ _ _ hp hlo hfuel _ _
    have hl : ¬ left > 0 := by
      have : left ≤ 0 := by exact_mod_cast hfuel
      omega
    have hz : stop - s.pos = 0 := by omega
    refine ⟨{ total := total, buff := some b, st := s, trace := tr }, ?_, ?_, ?_, rfl,
      b, rfl, rfl⟩
    · simp [fs_copy_loop, hl]
    · simp [hz]
    · simp [hz]
  | succ n ih =>
    intro s left total b tr hc ha hw hp hlo hfuel hend hmax
    unfold SSIZE_MAX at hmax
    by_cases hl : left > 0
    · by_cases hlt : s.pos < stop
      · obtain ⟨r1, r2, r3⟩ := hread s.pos hlt
        have hans : s.answer s.pos 65536 = ans s.pos 65536 := by rw [ha]
        have hpos : 0 < s.answer s.pos 65536 := by rw [hans]; omega
        have hnr : ¬ s.answer s.pos 65536 ≤ 0 := by omega
        have hsz : toSize (s.answer s.pos 65536) = (s.answer s.pos 65536).toNat :=
          toSize_of_pos_le hpos (by rw [hans]; omega)
        have hdl : ((s.content.drop s.pos).take (s.answer s.pos 65536).toNat).length
            = (s.answer s.pos 65536).toNat := by
          rw [List.length_take, List.length_drop, hc, hans]; omega
        have hcnt : 0 < (s.answer s.pos 65536).toNat := by omega
        have hload : (Block.store b 0 ((s.content.drop s.pos).take
            (s.answer s.pos 65536).toNat)).load 0 (s.answer s.pos 65536).toNat
            = (s.content.drop s.pos).take (s.answer s.pos 65536).toNat := by
          have := Block.load_store_same b 0
            ((s.content.drop s.pos).take (s.answer s.pos 65536).toNat)
          rw [hdl] at this; exact this
        have hrd := sim_read_pos s b 0 65536 hpos
        have hwr := sim_write_full
          { s with pos := s.pos + ((s.content.drop s.pos).take
              (s.answer s.pos 65536).toNat).length }
          (Block.store b 0 ((s.content.drop s.pos).take (s.answer s.pos 65536).toNat))
          (s.answer s.pos 65536).toNat hcnt (hw _ _)
        obtain ⟨v, hv, hvt, hvd, hvl, b', hvb, hvba⟩ := ih
          { s with
            pos := s.pos + ((s.content.drop s.pos).take (s.answer s.pos 65536).toNat).length
            dest := s.dest ++ (Block.store b 0 ((s.content.drop s.pos).take
              (s.answer s.pos 65536).toNat)).load 0 (s.answer s.pos 65536).toNat }
          (left - s.answer s.pos 65536) (total + s.answer s.pos 65536)
          (Block.store b 0 ((s.content.drop s.pos).take (s.answer s.pos 65536).toNat))
          (tr ++ [Call.fs_read SRC_HND (some 0) 65536] ++
            [Call.fs_write DST_HND (some 0) (s.answer s.pos 65536).toNat])
          hc ha hw
          (by show s.pos + _ ≤ stop
              rw [hdl, hans]; omega)
          (by show ((stop - (s.pos + _) : Nat) : Int) ≤ _
              rw [hdl, hans]; rw [hans] at hcnt; omega)
          (by push_cast at hfuel; omega)
          (by rcases hend with h | h
              · left
                show _ ≤ ((stop - (s.pos + _) : Nat) : Int)
                rw [hdl, hans]; rw [hans] at hcnt; omega
              · right; exact h)
          (by show total + s.answer s.pos 65536 + ((stop - (s.pos + _) : Nat) : Int) ≤ _
              unfold SSIZE_MAX
              rw [hdl, hans]; rw [hans] at hcnt; omega)
        refine ⟨v, ?_, ?_, ?_, hvl, b', hvb, hvba⟩
        · have ho : ¬ total + s.answer s.pos 65536 > SSIZE_MAX := by
            unfold SSIZE_MAX; rw [hans]; omega
          simp only [fs_copy_loop, if_pos hl, hrd, if_neg hnr, if_neg ho, hwr, hsz,
            Option.map_some']
          exact hv
        · rw [hvt]
          show total + s.answer s.pos 65536 + ((stop - (s.pos + _) : Nat) : Int) = _
          rw [hdl, hans]; rw [hans] at hcnt; omega
        · rw [hvd]
          show (s.dest ++ _) ++ (c.drop (s.pos + _)).take (stop - (s.pos + _)) = _
          rw [hload, hdl, hc, List.append_assoc, take_drop_add]
          congr 2
          rw [hans]; rw [hans] at hcnt; omega
      · have hps : s.pos = stop := by omega
        have hz : stop - s.pos = 0 := by omega
        have hle : s.answer s.pos 65536 ≤ 0 := by
          rcases hend with h | h
          · rw [hz] at h; simp at h; omega
          · rw [ha, hps]; exact h
        refine ⟨{ total := total, buff := some b, st := s,
                  trace := tr ++ [Call.fs_read SRC_HND (some 0) 65536] }, ?_, ?_, ?_, rfl,
          b, rfl, rfl⟩
        · simp only [fs_copy_loop, if_pos hl, sim_read_nonpos s b 0 65536 hle, if_pos hle,
            Option.map_some']
        · simp [hz]
        · simp [hz]
    · have hz : stop - s.pos = 0 := by omega
      refine ⟨{ total := total, buff := some b, st := s, trace := tr }, ?_, ?_, ?_, rfl,
        b, rfl, rfl⟩
      · simp [fs_copy_loop, hl]
      · simp [hz]
      · simp [hz]

theorem sim_open_src (s : Sim) (fn : String) (h : s.srcOpens = true) :
    simKernel.fs_open s fn [OFlag.O_RDONLY] = (SRC_HND, { s with pos := 0 }) := by
  simp [simKernel, h]

theorem sim_open_src_fail (s : Sim) (fn : String) (h : s.srcOpens = false) :
    simKernel.fs_open s fn [OFlag.O_RDONLY] = (-1, s) := by
  simp [simKernel, h]

theorem sim_open_dst (s : Sim) (fn : String) (h : s.dstOpens = true) :
    simKernel.fs_open s fn [OFlag.O_WRONLY, OFlag.O_TRUNC, OFlag.O_CREAT]
      = (DST_HND, { s with dest := [] }) := by
  simp [simKernel, h]

theorem sim_total (s : Sim) : simKernel.fs_total s SRC_HND = (s.reported, s) := by
  simp [simKernel]

theorem sim_malloc (s : Sim) (n : Nat) (h : s.mallocOk = true) :
    simKernel.malloc s n = (some { size := n, byte := s.junk, addr := s.nextAddr },
      { s with nextAddr := s.nextAddr + 1, live := s.nextAddr :: s.live }) := by
  simp [simKernel, h]

theorem sim_close (s : Sim) (h : Int) : simKernel.fs_close s h = s := rfl

theorem sim_free_some (s : Sim) (b : Block) :
    simKernel.free s (some b) = { s with live := s.live.erase b.addr } := rfl

theorem sim_free_dest (s : Sim) (b : Option Block) : (simKernel.free s b).dest = s.dest := by
  cases b <;> rfl

theorem sim_invalid : simKernel.FILEHND_INVALID = -1 := rfl

/-- In the simulated world with both files opening and the buffer allocated,
`fs_copy` returns what its loop leaves. -/
theorem sim_fs_copy_of_loop (s : Sim) (src dst : String) (hsrc : s.srcOpens = true)
    (hdst : s.dstOpens = true) (hm : s.mallocOk = true) (v : CopyVars Sim)
    (hv : fs_copy_loop simKernel SRC_HND DST_HND (wrapSsize s.reported).toNat
      (wrapSsize s.reported) 0
      (some { size := 65536, byte := s.junk, addr := s.nextAddr })
      { s with pos := 0, dest := [], nextAddr := s.nextAddr + 1, live := s.nextAddr :: s.live }
      [Call.fs_open src [OFlag.O_RDONLY],
        Call.fs_open dst [OFlag.O_WRONLY, OFlag.O_TRUNC, OFlag.O_CREAT],
        Call.fs_total SRC_HND, Call.malloc 65536] = some v) :
    fs_copy simKernel s src dst = some
      { ret := v.total
        st := simKernel.free v.st v.buff
        trace := v.trace ++ [Call.free, Call.fs_close SRC_HND, Call.fs_close DST_HND] } := by
  have e1 : ¬ SRC_HND = (-1 : Int) := by decide
  have e2 : ¬ DST_HND = (-1 : Int) := by decide
  have hd : ({ s with pos := 0 } : Sim).dstOpens = true := hdst
  have hmm : ({ s with pos := 0, dest := [] } : Sim).mallocOk = true := hm
  simp only [fs_copy, sim_open_src s src hsrc, sim_invalid, if_neg e1,
    sim_open_dst { s with pos := 0 } dst hd, if_neg e2, sim_total,
    sim_malloc _ 65536 hmm, sim_close]
  rw [hv]; rfl

theorem toSize_natCast_sub {N p : Nat} (hN : N < 4294967296) (hp : p ≤ N) :
    toSize ((N : Int) - (p : Int)) = N - p := by
  unfold toSize; omega

/-- The loop of `fs_load` in the simulated world, the file reported as `N` bytes
and the source delivering chunks up to the position `stop`: when the loop is
left, `stop` bytes have been read, the block holds them in order from offset 0,
and `left` is `N - stop`. It stops at `stop` because `left` is used up or because
the read there yields `≤ 0`. -/
theorem sim_load_loop (c : List Nat) (ans : Nat → Nat → Int) (N stop : Nat)
    (hN : N < 4294967296) (hsN : stop ≤ N) (hstop : stop ≤ c.length)
    (hread : ∀ p, p < stop → 1 ≤ ans p (N - p) ∧ ans p (N - p) ≤ ((stop - p : Nat) : Int))
    (hend : stop = N ∨ ans stop (N - stop) ≤ 0) :
    ∀ (fuel : Nat) (s : Sim) (left total : Int) (out : Nat) (b : Block) (tr : List Call),
      s.content = c → s.answer = ans → s.pos ≤ stop →
      left = (N : Int) - (s.pos : Int) → total = (s.pos : Int) → out = s.pos →
      b.load 0 s.pos = c.take s.pos → left ≤ (fuel : Int) →
      ∃ v b', fs_load_loop simKernel SRC_HND fuel left total out (some b) s tr = some v ∧
        v.total = (stop : Int) ∧ v.left = (N : Int) - (stop : Int) ∧
        v.data = some b' ∧ b'.load 0 stop = c.take stop ∧
        (b'.size = b.size ∧ b'.addr = b.addr) ∧
        v.st = { s with pos := stop } := by
  intro fuel
  induction fuel with
  | zero =>
    intro s left total out b tr _ _ hp hleft htotal _ hb hfuel
    have hl : ¬ left > 0 := by
      have : left ≤ 0 := by exact_mod_cast hfuel
      omega
    have hps : s.pos = stop := by omega
    refine ⟨{ left := left, total := total, out := out, data := some b, st := s, trace := tr },
      b, ?_, ?_, ?_, rfl, ?_, ⟨rfl, rfl⟩, ?_⟩
    · simp [fs_load_loop, hl]
    · show total = (stop : Int)
      omega
    · show left = (N : Int) - (stop : Int)
      omega
    · rw [← hps]; exact hb
    · show s = { s with pos := stop }
      rw [← hps]
  | succ n ih =>
    intro s left total out b tr hc ha hp hleft htotal hout hb hfuel
    have hsz : toSize left = N - s.pos := by
      rw [hleft]; exact toSize_natCast_sub hN (by omega)
    by_cases hl : left > 0
    · by_cases hlt : s.pos < stop
      · obtain ⟨r1, r2⟩ := hread s.pos hlt
        have hans : s.answer s.pos (N - s.pos) = ans s.pos (N - s.pos) := by rw [ha]
        have hpos : 0 < s.answer s.pos (N - s.pos) := by rw [hans]; omega
        have hnr : ¬ s.answer s.pos (N - s.pos) ≤ 0 := by omega
        have hdl : ((s.content.drop s.pos).take (s.answer s.pos (N - s.pos)).toNat).length
            = (s.answer s.pos (N - s.pos)).toNat := by
          rw [List.length_take, List.length_drop, hc, hans]; omega
        have hrd := sim_read_pos s b out (N - s.pos) hpos
        have hblock : (Block.store b s.pos ((s.content.drop s.pos).take
            (s.answer s.pos (N - s.pos)).toNat)).load 0
              (s.pos + (s.answer s.pos (N - s.pos)).toNat)
            = c.take (s.pos + (s.answer s.pos (N - s.pos)).toNat) := by
          have := Block.load_store_append b s.pos
            ((s.content.drop s.pos).take (s.answer s.pos (N - s.pos)).toNat)
          rw [hdl] at this
          rw [this, hb, hc, List.take_add]
        obtain ⟨v, b', hv, hvt, hvl, hvd, hvb, hvs, hvst⟩ := ih
          { s with
            pos := s.pos + ((s.content.drop s.pos).take
              (s.answer s.pos (N - s.pos)).toNat).length }
          (left - s.answer s.pos (N - s.pos)) (total + s.answer s.pos (N - s.pos))
          (out + (s.answer s.pos (N - s.pos)).toNat)
          (Block.store b out ((s.content.drop s.pos).take (s.answer s.pos (N - s.pos)).toNat))
          (tr ++ [Call.fs_read SRC_HND (some out) (N - s.pos)])
          hc ha
          (by show s.pos + _ ≤ stop
              rw [hdl, hans]; omega)
          (by show _ = (N : Int) - ((s.pos + _ : Nat) : Int)
              rw [hdl]; push_cast; omega)
          (by show _ = ((s.pos + _ : Nat) : Int)
              rw [hdl]; push_cast; omega)
          (by show _ = s.pos + _
              rw [hdl, hout])
          (by show Block.load _ 0 (s.pos + _) = c.take (s.pos + _)
              rw [hdl, hout]; exact hblock)
          (by push_cast at hfuel; omega)
        refine ⟨v, b', ?_, hvt, hvl, hvd, hvb, ?_, ?_⟩
        · simp only [fs_load_loop, if_pos hl, hsz, hrd, if_neg hnr, Option.map_some']
          exact hv
        · exact ⟨by rw [hvs.1]; rfl, by rw [hvs.2]; rfl⟩
        · rw [hvst]
      · have hps : s.pos = stop := by omega
        have hle : s.answer s.pos (N - s.pos) ≤ 0 := by
          rcases hend with h | h
          · omega
          · rw [ha, hps]; exact h
        refine ⟨{ left := left, total := total, out := out, data := some b, st := s,
                  trace := tr ++ [Call.fs_read SRC_HND (some out) (N - s.pos)] },
          b, ?_, ?_, ?_, rfl, ?_, ⟨rfl, rfl⟩, ?_⟩
        · simp only [fs_load_loop, if_pos hl, hsz, sim_read_nonpos s b out (N - s.pos) hle,
            if_pos hle, Option.map_some']
        · show total = (stop : Int)
          omega
        · show left = (N : Int) - (stop : Int)
          omega
        · rw [← hps]; exact hb
        · show s = { s with pos := stop }
          rw [← hps]
    · have hps : s.pos = stop := by omega
      refine ⟨{ left := left, total := total, out := out, data := some b, st := s,
                trace := tr }, b, ?_, ?_, ?_, rfl, ?_, ⟨rfl, rfl⟩, ?_⟩
      · simp [fs_load_loop, hl]
      · show total = (stop : Int)
        omega
      · show left = (N : Int) - (stop : Int)
        omega
      · rw [← hps]; exact hb
      · show s = { s with pos := stop }
        rw [← hps]

/-- In the simulated world with the file opening and the buffer allocated,
`fs_load` returns what its loop leaves, after the `realloc` of a short read. -/
theorem sim_fs_load_of_loop (s : Sim) (src : String) (p0 : Option Block)
    (hsrc : s.srcOpens = true) (hm : s.mallocOk = true) (v : LoadVars Sim)
    (hv : fs_load_loop simKernel SRC_HND s.reported.toNat s.reported 0 0
      (some { size := toSize s.reported, byte := s.junk, addr := s.nextAddr })
      { s with pos := 0, nextAddr := s.nextAddr + 1, live := s.nextAddr :: s.live }
      [Call.fs_open src [OFlag.O_RDONLY], Call.fs_total SRC_HND,
        Call.malloc (toSize s.reported)] = some v) :
    fs_load simKernel s src p0 = some
      (if v.left > 0 then
        { ret := v.total
          out_ptr := if (simKernel.realloc v.st v.data (toSize v.total)).1.isNone then v.data
            else (simKernel.realloc v.st v.data (toSize v.total)).1
          st := (simKernel.realloc v.st v.data (toSize v.total)).2
          trace := v.trace ++ [Call.realloc (toSize v.total), Call.fs_close SRC_HND] }
      else
        { ret := v.total, out_ptr := v.data, st := v.st,
          trace := v.trace ++ [Call.fs_close SRC_HND] }) := by
  have e1 : ¬ SRC_HND = (-1 : Int) := by decide
  have hmm : ({ s with pos := 0 } : Sim).mallocOk = true := hm
  simp only [fs_load, sim_open_src s src hsrc, sim_invalid, if_neg e1, sim_total,
    sim_malloc _ _ hmm, sim_close]
  rw [hv]; rfl

theorem sim_realloc_ok (s : Sim) (b : Block) (n : Nat) (h : s.reallocOk = true)
    (hz : ¬ (n = 0 ∧ s.zeroFrees = true)) :
    simKernel.realloc s (some b) n
      = (some { size := n, byte := b.byte, addr := b.addr }, s) := by
  simp only [simKernel, if_neg hz, h, if_true]

theorem sim_realloc_fail (s : Sim) (b : Block) (n : Nat) (h : s.reallocOk = false)
    (hz : ¬ (n = 0 ∧ s.zeroFrees = true)) :
    simKernel.realloc s (some b) n = (none, s) := by
  simp [simKernel, hz, h]

theorem sim_realloc_zero_frees (s : Sim) (b : Block) (h : s.zeroFrees = true) :
    simKernel.realloc s (some b) 0 = (none, { s with live := s.live.erase b.addr }) := by
  simp [simKernel, h]

theorem Block.load_resize (b : Block) (n a off k : Nat) :
    Block.load { size := n, byte := b.byte, addr := a } off k = b.load off k := rfl

theorem sim_reach_answer {s s' : Sim} (h : Kernel.Reach simKernel s s') :
    s'.answer = s.answer := by
  induction h with
  | start => rfl
  | fs_open fn mode _ ih =>
    rw [← ih]; simp only [simKernel]; split_ifs <;> rfl
  | fs_close h _ ih => exact ih
  | fs_total h _ ih => exact ih
  | fs_read h blk off cnt _ ih =>
    rw [← ih]
    cases blk with
    | none => rfl
    | some b => simp only [simKernel]; split_ifs <;> rfl
  | fs_write h blk cnt _ ih =>
    rw [← ih]
    cases blk with
    | none => rfl
    | some b => simp only [simKernel]; split_ifs <;> rfl
  | malloc n _ ih =>
    rw [← ih]; simp only [simKernel]; split_ifs <;> rfl
  | realloc blk n _ ih =>
    rw [← ih]
    cases blk with
    | none => simp only [simKernel]; split_ifs <;> rfl
    | some b => simp only [simKernel]; split_ifs <;> rfl
  | free blk _ ih =>
    rw [← ih]
    cases blk <;> rfl

theorem sim_read_le (s : Sim) (hans : ∀ p c, s.answer p c ≤ (c : Int)) (h : Int)
    (blk : Option Block) (off cnt : Nat) :
    (simKernel.fs_read s h blk off cnt).1 ≤ (cnt : Int) := by
  cases blk with
  | none => show (-1 : Int) ≤ _; omega
  | some b =>
    simp only [simKernel]
    split_ifs
    · exact hans _ _
    · exact hans _ _
    · show (-1 : Int) ≤ _; omega

theorem simOf_answer_le (content : List Nat) (chunk p c : Nat) :
    (simOf content chunk).answer p c ≤ (c : Int) :=
  le_trans (min_le_left _ _) (min_le_right _ _)

/-! ## The claims -/

/-- C1: `fs_path_append` inserts exactly one separator. For a C string `dst`
(characters `cs`) that is empty or does not end in `'/'`, a C string `src`
(characters `ss`) that does not start with `'/'`, the two not both empty, and a
capacity `len` of at least `strlen dst + strlen src + 2` that the object at
`dst` has, the call leaves `cs ++ "/" ++ ss` in `dst` and returns
`strlen dst + strlen src + 2`. -/
theorem fs_path_append_inserts_separator (cs rest ss srest : List Nat) (len : Nat)
    (hcs : 0 ∉ cs) (hss : 0 ∉ ss)
    (hd : cs = [] ∨ ¬ endsSlash cs) (hs : ¬ startsSlash ss) (hne : ¬ (cs = [] ∧ ss = []))
    (hlen : cs.length + ss.length + 2 ≤ len) (hcap : len ≤ (cstr cs rest).length)
    (haddr : Addressable (cstr cs rest) (cstr ss srest)) :
    strlen (cstr cs rest) = some cs.length ∧ strlen (cstr ss srest) = some ss.length ∧
    fs_path_append (some (cstr cs rest)) (some (cstr ss srest)) len
      = some { ret := ((cs.length + ss.length + 2 : Nat) : Int), errno := none,
               dst := some (cstr (cs ++ SLASH :: ss) (rest.drop (ss.length + 1))) } := by
  refine ⟨strlen_cstr hcs rest, strlen_cstr hss srest, ?_⟩
  have he : ¬ endsSlash cs := by
    rcases hd with h | h
    · subst h; exact not_endsSlash_nil
    · exact h
  have hnt : ¬ tooLong cs ss len := fun h => by
    have := h.2; rw [if_pos he] at this; omega
  have hj : joined cs ss = cs ++ SLASH :: ss := by
    unfold joined; rw [if_neg hne, if_pos ⟨he, hs⟩]
  have hroom : ¬ tooLong cs ss len → (joined cs ss).length + 1 ≤ (cstr cs rest).length := by
    intro _; rw [hj]; simp only [List.length_append, List.length_cons]; omega
  rw [fs_path_append_eval rest srest hcs hss (by omega) haddr hroom, if_neg hnt, hj]
  simp only [List.length_append, List.length_cons]
  rw [drop_cstr_add cs rest (ss.length + 1)]
  have e : cs.length + (ss.length + 1) + 1 = cs.length + ss.length + 2 := by omega
  rw [e]

/-- Witness of C1: `dst = "/foo"` in a 16-byte buffer, `src = "bar"`, `len = 16`
give `dst = "/foo/bar"` and the return value 9. -/
theorem fs_path_append_inserts_separator_witness :
    fs_path_append (some (cstr [47, 102, 111, 111] (List.replicate 11 0)))
        (some (cstr [98, 97, 114] [])) 16
      = some { ret := 9, errno := none,
               dst := some (cstr [47, 102, 111, 111, 47, 98, 97, 114] (List.replicate 7 0)) } :=
  (fs_path_append_inserts_separator [47, 102, 111, 111] (List.replicate 11 0) [98, 97, 114] []
    16 (by decide) (by decide) (by decide) (by decide) (by decide) (by decide) (by decide)
    (by decide)).2.2

/-- C2: `fs_path_append` elides a duplicate separator. For a C string `dst`
(characters `cs`) ending in `'/'`, a C string `src` (characters `ss`) starting
with `'/'` and a capacity `len` of at least `strlen dst + strlen src + 1` that
the object at `dst` has, the call leaves `dst` without its final `'/'` followed
by `src` in `dst` and returns `strlen dst + strlen src`. -/
theorem fs_path_append_elides_duplicate (cs rest ss srest : List Nat) (len : Nat)
    (hcs : 0 ∉ cs) (hss : 0 ∉ ss) (hd : endsSlash cs) (hs : startsSlash ss)
    (hlen : cs.length + ss.length + 1 ≤ len) (hcap : len ≤ (cstr cs rest).length)
    (haddr : Addressable (cstr cs rest) (cstr ss srest)) :
    strlen (cstr cs rest) = some cs.length ∧ strlen (cstr ss srest) = some ss.length ∧
    fs_path_append (some (cstr cs rest)) (some (cstr ss srest)) len
      = some { ret := ((cs.length + ss.length : Nat) : Int), errno := none,
               dst := some (cstr (cs.dropLast ++ ss) (rest.drop (ss.length - 1))) } := by
  refine ⟨strlen_cstr hcs rest, strlen_cstr hss srest, ?_⟩
  have hpos := startsSlash_length_pos hs
  have hne : ¬ (cs = [] ∧ ss = []) := fun h => by
    have := h.2; subst this; simp at hpos
  have hcpos : 0 < cs.length := by
    cases cs with
    | nil => exact absurd hd not_endsSlash_nil
    | cons b bs => simp
  have hnt : ¬ tooLong cs ss len := fun h => by
    have := h.2; rw [if_neg (not_not.mpr hd)] at this; omega
  have hj : joined cs ss = cs.dropLast ++ ss := by
    unfold joined; rw [if_neg hne, if_neg (fun h => h.1 hd), if_pos ⟨hd, hs⟩]
  have hroom : ¬ tooLong cs ss len → (joined cs ss).length + 1 ≤ (cstr cs rest).length := by
    intro _; rw [hj]; simp only [List.length_append, List.length_dropLast]; omega
  rw [fs_path_append_eval rest srest hcs hss (by omega) haddr hroom, if_neg hnt, hj]
  simp only [List.length_append, List.length_dropLast]
  have e1 : cs.length - 1 + ss.length + 1 = cs.length + ss.length := by omega
  have e2 : cs.length + ss.length = cs.length + (ss.length - 1) + 1 := by omega
  rw [e1]
  nth_rewrite 2 [e2]
  rw [drop_cstr_add cs rest (ss.length - 1)]

/-- Witness of C2: `dst = "/foo/"` in a 16-byte buffer, `src = "/bar"`,
`len = 16` give `dst = "/foo/bar"` and the return value 9. -/
theorem fs_path_append_elides_duplicate_witness :
    fs_path_append (some (cstr [47, 102, 111, 111, 47] (List.replicate 10 0)))
        (some (cstr [47, 98, 97, 114] [])) 16
      = some { ret := 9, errno := none,
               dst := some (cstr [47, 102, 111, 111, 47, 98, 97, 114] (List.replicate 7 0)) } :=
  (fs_path_append_elides_duplicate [47, 102, 111, 111, 47] (List.replicate 10 0)
    [47, 98, 97, 114] [] 16 (by decide) (by decide) (by decide) (by decide) (by decide)
    (by decide) (by decide)).2.2

/-- C3: `fs_path_append` rejects overflow without mutating. For non-null C
strings `dst` and `src` and a capacity `len > 0` smaller than the joined path
(`dst`, a separator only where one is inserted, `src`, less an elided duplicate
separator) with its terminator, the call returns -1, sets `errno` to
`ENAMETOOLONG` and leaves every byte of `dst` as it was. -/
theorem fs_path_append_rejects_overflow (cs rest ss srest : List Nat) (len : Nat)
    (hcs : 0 ∉ cs) (hss : 0 ∉ ss) (hlen : 0 < len)
    (haddr : Addressable (cstr cs rest) (cstr ss srest))
    (hlong : len < (joined cs ss).length + 1) :
    fs_path_append (some (cstr cs rest)) (some (cstr ss srest)) len
      = some { ret := -1, errno := some Errno.ENAMETOOLONG, dst := some (cstr cs rest) } := by
  have hne : ¬ (cs = [] ∧ ss = []) := fun h => by
    rw [joined_length, if_pos h] at hlong; omega
  have ht : tooLong cs ss len := by
    refine ⟨hne, ?_⟩
    rw [joined_length, if_neg hne] at hlong
    by_cases he : endsSlash cs
    · rw [if_neg (not_not.mpr he)]
      rw [if_neg (fun h => h.1 he)] at hlong
      split_ifs at hlong <;> omega
    · rw [if_pos he]
      split_ifs at hlong <;> omega
  rw [fs_path_append_eval rest srest hcs hss (by omega) haddr (fun h => absurd ht h), if_pos ht]

/-- Witness of C3: `dst = "/foo"` in a 16-byte buffer, `src = "bar"`, `len = 8`;
the joined path `"/foo/bar"` needs 9 bytes. -/
theorem fs_path_append_rejects_overflow_witness :
    fs_path_append (some (cstr [47, 102, 111, 111] (List.replicate 11 0)))
        (some (cstr [98, 97, 114] [])) 8
      = some { ret := -1, errno := some Errno.ENAMETOOLONG,
               dst := some (cstr [47, 102, 111, 111] (List.replicate 11 0)) } :=
  fs_path_append_rejects_overflow [47, 102, 111, 111] (List.replicate 11 0) [98, 97, 114] []
    8 (by decide) (by decide) (by decide) (by decide) (by decide)

/-- C10: the length `fs_path_append` returns is exact and within capacity. On C
strings `dst` and `src`, `dst` an object of at least `len` bytes, the call is
defined, and whenever it returns a value other than -1 that value is
`strlen (dst after the call) + 1`, `dst` after the call has its terminator at
index `ret - 1`, the value is at most `len`, and every byte of `dst` at an index
`≥ len` is as it was before the call. -/
theorem fs_path_append_length_exact (cs rest ss srest : List Nat) (len : Nat)
    (hcs : 0 ∉ cs) (hss : 0 ∉ ss) (hcap : len ≤ (cstr cs rest).length)
    (haddr : Addressable (cstr cs rest) (cstr ss srest)) :
    ∃ r, fs_path_append (some (cstr cs rest)) (some (cstr ss srest)) len = some r ∧
      (r.ret ≠ -1 → ∃ m n, r.dst = some m ∧ strlen m = some n ∧ r.ret = (n : Int) + 1 ∧
        m[n]? = some 0 ∧ r.ret ≤ (len : Int) ∧ m.length = (cstr cs rest).length ∧
        ∀ i, len ≤ i → m[i]? = (cstr cs rest)[i]?) := by
  by_cases hlen : len = 0
  · refine ⟨{ ret := -1, errno := some Errno.EINVAL, dst := some (cstr cs rest) }, ?_, ?_⟩
    · unfold fs_path_append; simp [hlen]
    · intro h; exact absurd rfl h
  · have hfit : ¬ tooLong cs ss len → (joined cs ss).length + 1 ≤ len := by
      intro hnt
      rw [joined_length]
      by_cases hboth : cs = [] ∧ ss = []
      · rw [if_pos hboth]; omega
      · rw [if_neg hboth]
        have h2 : ¬ (if ¬ endsSlash cs then cs.length + ss.length + 2 > len
            else cs.length + ss.length + 1 > len) := fun h => hnt ⟨hboth, h⟩
        by_cases he : endsSlash cs
        · rw [if_neg (not_not.mpr he)] at h2
          rw [if_neg (fun h => h.1 he)]
          split_ifs <;> omega
        · rw [if_pos he] at h2
          split_ifs <;> omega
    have hroom : ¬ tooLong cs ss len → (joined cs ss).length + 1 ≤ (cstr cs rest).length :=
      fun hnt => Nat.le_trans (hfit hnt) hcap
    rw [fs_path_append_eval rest srest hcs hss hlen haddr hroom]
    by_cases ht : tooLong cs ss len
    · rw [if_pos ht]
      exact ⟨_, rfl, fun h => absurd rfl h⟩
    · rw [if_neg ht]
      refine ⟨_, rfl, fun _ => ⟨_, (joined cs ss).length, rfl, ?_, ?_, ?_, ?_, ?_, ?_⟩⟩
      · exact strlen_cstr (zero_not_mem_joined hcs hss) _
      · push_cast; rfl
      · exact getElem?_cstr_length _ _
      · show (((joined cs ss).length + 1 : Nat) : Int) ≤ (len : Int)
        exact_mod_cast hfit ht
      · exact length_cstr_drop _ _ (hroom ht)
      · intro i hi
        exact getElem?_cstr_drop _ _ i (Nat.le_trans (hfit ht) hi)

/-- Witness of C10: `dst = "/foo"` in a 16-byte buffer, `src = "bar"`,
`len = 16`. -/
theorem fs_path_append_length_exact_witness :
    ∃ r, fs_path_append (some (cstr [47, 102, 111, 111] (List.replicate 11 0)))
        (some (cstr [98, 97, 114] [])) 16 = some r ∧
      (r.ret ≠ -1 → ∃ m n, r.dst = some m ∧ strlen m = some n ∧ r.ret = (n : Int) + 1 ∧
        m[n]? = some 0 ∧ r.ret ≤ ((16 : Nat) : Int) ∧
        m.length = (cstr [47, 102, 111, 111] (List.replicate 11 0)).length ∧
        ∀ i, 16 ≤ i → m[i]? = (cstr [47, 102, 111, 111] (List.replicate 11 0))[i]?) :=
  fs_path_append_length_exact [47, 102, 111, 111] (List.replicate 11 0) [98, 97, 114] []
    16 (by decide) (by decide) (by decide) (by decide)


/-- C8: `fs_copy` distinguishes the two open failures. If the source does not
open it returns -1 having made no call but that `fs_open`; if the source opens
and the destination does not it returns -2 having closed the source, its calls
being the two opens and that close; a run in which both open returns, whenever
it is defined, a value from 0 to the largest `ssize_t`, so never -1 or -2; such
a run is defined when the size reported leaves room for one buffer below the
largest `ssize_t` and no `fs_read` of 65536 bytes returns more than 65536; and
-1 and -2 differ. This holds for every kernel. -/
theorem fs_copy_open_failures {σ : Type} (K : Kernel σ) (s : σ) (src dst : String) :
    ((K.fs_open s src [OFlag.O_RDONLY]).1 = K.FILEHND_INVALID →
      fs_copy K s src dst = some
        { ret := -1
          st := (K.fs_open s src [OFlag.O_RDONLY]).2
          trace := [Call.fs_open src [OFlag.O_RDONLY]] }) ∧
    ((K.fs_open s src [OFlag.O_RDONLY]).1 ≠ K.FILEHND_INVALID →
      (K.fs_open (K.fs_open s src [OFlag.O_RDONLY]).2 dst
        [OFlag.O_WRONLY, OFlag.O_TRUNC, OFlag.O_CREAT]).1 = K.FILEHND_INVALID →
      fs_copy K s src dst = some
        { ret := -2
          st := K.fs_close (K.fs_open (K.fs_open s src [OFlag.O_RDONLY]).2 dst
            [OFlag.O_WRONLY, OFlag.O_TRUNC, OFlag.O_CREAT]).2
            (K.fs_open s src [OFlag.O_RDONLY]).1
          trace := [Call.fs_open src [OFlag.O_RDONLY],
            Call.fs_open dst [OFlag.O_WRONLY, OFlag.O_TRUNC, OFlag.O_CREAT],
            Call.fs_close (K.fs_open s src [OFlag.O_RDONLY]).1] }) ∧
    ((K.fs_open s src [OFlag.O_RDONLY]).1 ≠ K.FILEHND_INVALID →
      (K.fs_open (K.fs_open s src [OFlag.O_RDONLY]).2 dst
        [OFlag.O_WRONLY, OFlag.O_TRUNC, OFlag.O_CREAT]).1 ≠ K.FILEHND_INVALID →
      ∀ r, fs_copy K s src dst = some r →
        0 ≤ r.ret ∧ r.ret ≤ SSIZE_MAX ∧ r.ret ≠ -1 ∧ r.ret ≠ -2) ∧
    ((K.fs_open s src [OFlag.O_RDONLY]).1 ≠ K.FILEHND_INVALID →
      (K.fs_open (K.fs_open s src [OFlag.O_RDONLY]).2 dst
        [OFlag.O_WRONLY, OFlag.O_TRUNC, OFlag.O_CREAT]).1 ≠ K.FILEHND_INVALID →
      wrapSsize (K.fs_total (K.fs_open (K.fs_open s src [OFlag.O_RDONLY]).2 dst
        [OFlag.O_WRONLY, OFlag.O_TRUNC, OFlag.O_CREAT]).2
        (K.fs_open s src [OFlag.O_RDONLY]).1).1 + 65535 ≤ SSIZE_MAX →
      (∀ (s' : σ), Kernel.Reach K s s' → ∀ (h : Int) (blk : Option Block),
        (K.fs_read s' h blk 0 65536).1 ≤ 65536) →
      ∃ r, fs_copy K s src dst = some r ∧ 0 ≤ r.ret) ∧
    (-1 : Int) ≠ -2 := by
  refine ⟨?_, ?_, ?_, ?_, by decide⟩
  · intro h
    simp only [fs_copy, if_pos h]
  · intro h1 h2
    simp only [fs_copy, if_neg h1, if_pos h2]
  · intro h1 h2 r hr
    obtain ⟨h0, hmax, _⟩ := fs_copy_both_open K s src dst h1 h2 r hr
    exact ⟨h0, hmax, by omega, by omega⟩
  · intro h1 h2 hsize hle
    obtain ⟨r, hr⟩ := fs_copy_defined K s src dst h1 h2 hsize hle
    exact ⟨r, hr, (fs_copy_both_open K s src dst h1 h2 r hr).1⟩

/-- Witness of C8: in the simulated world, a source that does not open gives
-1, a destination that does not open gives -2, whatever is on the files, and a
copy of three bytes with both files open is defined and returns a value
`≥ 0`. -/
theorem fs_copy_open_failures_witness :
    (fs_copy simKernel { simOf [1, 2, 3] 2 with srcOpens := false } "a" "b").map
        (fun r => (r.ret, r.trace)) = some (-1, [Call.fs_open "a" [OFlag.O_RDONLY]]) ∧
    (fs_copy simKernel { simOf [1, 2, 3] 2 with dstOpens := false } "a" "b").map
        (fun r => (r.ret, r.trace)) = some (-2, [Call.fs_open "a" [OFlag.O_RDONLY],
          Call.fs_open "b" [OFlag.O_WRONLY, OFlag.O_TRUNC, OFlag.O_CREAT],
          Call.fs_close SRC_HND]) ∧
    ∃ r, fs_copy simKernel (simOf [1, 2, 3] 2) "a" "b" = some r ∧ 0 ≤ r.ret := by
  refine ⟨?_, ?_, ?_⟩
  · rw [(fs_copy_open_failures simKernel { simOf [1, 2, 3] 2 with srcOpens := false }
      "a" "b").1 (by decide)]
    rfl
  · rw [(fs_copy_open_failures simKernel { simOf [1, 2, 3] 2 with dstOpens := false }
      "a" "b").2.1 (by decide) (by decide)]
    rfl
  · exact (fs_copy_open_failures simKernel (simOf [1, 2, 3] 2) "a" "b").2.2.2.1
      (by decide) (by decide) (by decide)
      (fun s' hr h blk =>
        sim_read_le s' (by rw [sim_reach_answer hr]; exact simOf_answer_le _ _) h blk 0 65536)

/-- C4: `fs_copy` copies a whole file. In the simulated world, for a source of
`N` bytes that `fs_total` reports as `N` (a value of an `ssize_t`, the type of
`left` and of the value returned), whose every `fs_read` delivers the next chunk
of between 1 and `min 65536 (bytes remaining)` bytes, with the destination
opening (truncated) and accepting every write in full, and the 64 KiB buffer
allocated, `fs_copy` returns `N` and the destination holds the `N` bytes of the
source. -/
theorem fs_copy_whole_file (s : Sim) (src dst : String) (N : Nat)
    (hsrc : s.srcOpens = true) (hdst : s.dstOpens = true) (hm : s.mallocOk = true)
    (hN : s.content.length = N) (hrep : s.reported = (N : Int))
    (hfit : (N : Int) ≤ SSIZE_MAX)
    (hread : ∀ p, p < N → 1 ≤ s.answer p 65536 ∧
      s.answer p 65536 ≤ min 65536 ((N - p : Nat) : Int))
    (hwrite : ∀ n k, s.accept n k = (k : Int)) :
    ∃ r, fs_copy simKernel s src dst = some r ∧ r.ret = (N : Int) ∧
      r.st.dest = s.content ∧ r.st.dest.length = N := by
  have hread2 : ∀ p, p < N → 1 ≤ s.answer p 65536 ∧ s.answer p 65536 ≤ 65536 ∧
      s.answer p 65536 ≤ ((N - p : Nat) : Int) := by
    intro p hp
    obtain ⟨h1, h2⟩ := hread p hp
    exact ⟨h1, le_trans h2 (min_le_left _ _), le_trans h2 (min_le_right _ _)⟩
  have hw : wrapSsize s.reported = (N : Int) := by
    rw [hrep]; unfold SSIZE_MAX at hfit; exact wrapSsize_of_range (by omega) hfit
  obtain ⟨v, hv, hvt, hvd, _⟩ := sim_copy_loop s.content s.answer N (by omega) hread2
    (wrapSsize s.reported).toNat
    { s with pos := 0, dest := [], nextAddr := s.nextAddr + 1, live := s.nextAddr :: s.live }
    (wrapSsize s.reported) 0
    { size := 65536, byte := s.junk, addr := s.nextAddr }
    [Call.fs_open src [OFlag.O_RDONLY],
      Call.fs_open dst [OFlag.O_WRONLY, OFlag.O_TRUNC, OFlag.O_CREAT],
      Call.fs_total SRC_HND, Call.malloc 65536]
    rfl rfl hwrite (Nat.zero_le _) (by rw [hw]; simp) (Int.self_le_toNat _)
    (Or.inl (by rw [hw]; simp))
    (by show (0 : Int) + ((N - 0 : Nat) : Int) ≤ SSIZE_MAX
        simpa using hfit)
  have hd : v.st.dest = s.content := by
    rw [hvd]
    show [] ++ (s.content.drop 0).take (N - 0) = s.content
    simp [← hN]
  refine ⟨_, sim_fs_copy_of_loop s src dst hsrc hdst hm v hv, ?_, ?_, ?_⟩
  · show v.total = (N : Int)
    rw [hvt]
    show (0 : Int) + ((N - 0 : Nat) : Int) = N
    simp
  · show (simKernel.free v.st v.buff).dest = s.content
    rw [sim_free_dest, hd]
  · show (simKernel.free v.st v.buff).dest.length = N
    rw [sim_free_dest, hd, hN]

/-- Witness of C4: a source of five bytes read in chunks of two. -/
theorem fs_copy_whole_file_witness :
    ∃ r, fs_copy simKernel (simOf [1, 2, 3, 4, 5] 2) "a" "b" = some r ∧ r.ret = ((5 : Nat) : Int) ∧
      r.st.dest = (simOf [1, 2, 3, 4, 5] 2).content ∧ r.st.dest.length = 5 :=
  fs_copy_whole_file (simOf [1, 2, 3, 4, 5] 2) "a" "b" 5 rfl rfl rfl rfl rfl (by decide)
    (by intro p hp
        have hp' : p = 0 ∨ p = 1 ∨ p = 2 ∨ p = 3 ∨ p = 4 := by omega
        rcases hp' with h | h | h | h | h <;> subst h <;> decide)
    (fun _ _ => rfl)

/-- The conversion of the size to `ssize_t` at work: a source reported as
`2 ^ 31` bytes makes `left` negative, so that `fs_copy` skips its loop and
returns 0, the destination truncated. -/
theorem fs_copy_size_beyond_ssize :
    (fs_copy simKernel { simOf [1, 2, 3] 2 with reported := 2147483648 } "a" "b").map
        (fun r => (r.ret, r.st.dest)) = some (0, []) := by
  decide

/-- C5: `fs_copy` reports a truncated copy and leaks nothing. In the simulated
world, for a source reported as `N` bytes (a value of an `ssize_t`) whose reads
deliver `K < N` bytes in all (chunks of between 1 and 65536 bytes) and then
yield a value `≤ 0`, the destination accepting every write in full, `fs_copy`
returns `K`, the destination holds the first `K` bytes of the source, the calls
made close the source handle once and the destination handle once and free the
buffer once, and the blocks allocated afterwards are those allocated before. -/
theorem fs_copy_truncated (s : Sim) (src dst : String) (N K : Nat)
    (hsrc : s.srcOpens = true) (hdst : s.dstOpens = true) (hm : s.mallocOk = true)
    (hrep : s.reported = (N : Int)) (hfit : (N : Int) ≤ SSIZE_MAX)
    (hK : K < N) (hKc : K ≤ s.content.length)
    (hread : ∀ p, p < K → 1 ≤ s.answer p 65536 ∧
      s.answer p 65536 ≤ min 65536 ((K - p : Nat) : Int))
    (hfail : s.answer K 65536 ≤ 0)
    (hwrite : ∀ n k, s.accept n k = (k : Int)) :
    ∃ r, fs_copy simKernel s src dst = some r ∧ r.ret = (K : Int) ∧
      r.st.dest = s.content.take K ∧
      r.trace.count (Call.fs_close SRC_HND) = 1 ∧
      r.trace.count (Call.fs_close DST_HND) = 1 ∧
      r.trace.count Call.free = 1 ∧
      r.trace.getLast? = some (Call.fs_close DST_HND) ∧
      r.st.live = s.live := by
  have hread2 : ∀ p, p < K → 1 ≤ s.answer p 65536 ∧ s.answer p 65536 ≤ 65536 ∧
      s.answer p 65536 ≤ ((K - p : Nat) : Int) := by
    intro p hp
    obtain ⟨h1, h2⟩ := hread p hp
    exact ⟨h1, le_trans h2 (min_le_left _ _), le_trans h2 (min_le_right _ _)⟩
  have hfit2 : (N : Int) ≤ 2147483647 := hfit
  have hw : wrapSsize s.reported = (N : Int) := by
    rw [hrep]; exact wrapSsize_of_range (by omega) hfit2
  obtain ⟨v, hv, hvt, hvd, hvl, b', hvb, hvba⟩ :=
    sim_copy_loop s.content s.answer K hKc hread2
    (wrapSsize s.reported).toNat
    { s with pos := 0, dest := [], nextAddr := s.nextAddr + 1, live := s.nextAddr :: s.live }
    (wrapSsize s.reported) 0
    { size := 65536, byte := s.junk, addr := s.nextAddr }
    [Call.fs_open src [OFlag.O_RDONLY],
      Call.fs_open dst [OFlag.O_WRONLY, OFlag.O_TRUNC, OFlag.O_CREAT],
      Call.fs_total SRC_HND, Call.malloc 65536]
    rfl rfl hwrite (Nat.zero_le _) (by rw [hw]; simp; omega) (Int.self_le_toNat _)
    (Or.inr hfail)
    (by show (0 : Int) + ((K - 0 : Nat) : Int) ≤ SSIZE_MAX
        unfold SSIZE_MAX; simp; omega)
  obtain ⟨_, _, evs, htr, htf⟩ := fs_copy_loop_sound simKernel SRC_HND DST_HND _ _ _ _ _ _ v
    (by unfold SSIZE_MAX; omega) hv
  have hc1 := count_close_of_isTransfer SRC_HND evs htf
  have hc2 := count_close_of_isTransfer DST_HND evs htf
  have hc3 := count_free_of_isTransfer evs htf
  refine ⟨_, sim_fs_copy_of_loop s src dst hsrc hdst hm v hv, ?_, ?_, ?_, ?_, ?_, ?_, ?_⟩
  · show v.total = (K : Int)
    rw [hvt]
    show (0 : Int) + ((K - 0 : Nat) : Int) = K
    simp
  · show (simKernel.free v.st v.buff).dest = s.content.take K
    rw [sim_free_dest, hvd]
    show [] ++ (s.content.drop 0).take (K - 0) = s.content.take K
    simp
  · show (v.trace ++ _).count _ = 1
    rw [htr]
    simp only [List.count_append, hc1]
    simp [List.count_cons, SRC_HND, DST_HND]
  · show (v.trace ++ _).count _ = 1
    rw [htr]
    simp only [List.count_append, hc2]
    simp [List.count_cons, SRC_HND, DST_HND]
  · show (v.trace ++ _).count _ = 1
    rw [htr]
    simp only [List.count_append, hc3]
    simp [List.count_cons]
  · show (v.trace ++ [Call.free, Call.fs_close SRC_HND, Call.fs_close DST_HND]).getLast? = _
    rw [List.getLast?_append]; rfl
  · show (simKernel.free v.st v.buff).live = s.live
    rw [hvb, sim_free_some]
    show v.st.live.erase b'.addr = s.live
    rw [hvl, hvba]
    show (s.nextAddr :: s.live).erase s.nextAddr = s.live
    simp

/-- Witness of C5: a source reported as five bytes whose reads deliver one byte
each up to the third and then yield 0. -/
theorem fs_copy_truncated_witness :
    ∃ r, fs_copy simKernel
        { simOf [1, 2, 3, 4, 5] 2 with answer := fun p _ => if p < 3 then 1 else 0 }
        "a" "b" = some r ∧ r.ret = ((3 : Nat) : Int) ∧
      r.st.dest = [1, 2, 3, 4, 5].take 3 ∧
      r.trace.count (Call.fs_close SRC_HND) = 1 ∧
      r.trace.count (Call.fs_close DST_HND) = 1 ∧
      r.trace.count Call.free = 1 ∧
      r.trace.getLast? = some (Call.fs_close DST_HND) ∧
      r.st.live = [] :=
  fs_copy_truncated
    { simOf [1, 2, 3, 4, 5] 2 with answer := fun p _ => if p < 3 then 1 else 0 }
    "a" "b" 5 3 rfl rfl rfl rfl (by decide) (by decide) (by decide)
    (by intro p hp
        have hp' : p = 0 ∨ p = 1 ∨ p = 2 := by omega
        rcases hp' with h | h | h <;> subst h <;> decide)
    (by decide) (fun _ _ => rfl)

/-- C6: `fs_load` loads a whole file. In the simulated world, for a file that
opens, reported as `N > 0` bytes (a value of an `ssize_t`), whose every `fs_read`
delivers the next chunk of between 1 and the requested number of bytes, with the
buffer allocated, `fs_load` returns `N`, `*out_ptr` is a block of `N` bytes
holding the file content in order, and the handle has been closed, once. -/
theorem fs_load_whole_file (s : Sim) (src : String) (p0 : Option Block) (N : Nat)
    (hsrc : s.srcOpens = true) (hm : s.mallocOk = true)
    (hN : s.content.length = N) (hrep : s.reported = (N : Int)) (hpos : 0 < N)
    (hfit : N < 2147483648)
    (hread : ∀ p, p < N → 1 ≤ s.answer p (N - p) ∧
      s.answer p (N - p) ≤ ((N - p : Nat) : Int)) :
    ∃ r b, fs_load simKernel s src p0 = some r ∧ r.ret = (N : Int) ∧
      r.out_ptr = some b ∧ b.size = N ∧ b.load 0 N = s.content ∧
      r.trace.count (Call.fs_close SRC_HND) = 1 := by
  have hts : toSize s.reported = N := by
    rw [hrep]; unfold toSize; omega
  obtain ⟨v, b', hv, hvt, hvl, hvd, hvb, hvs, _⟩ := sim_load_loop s.content s.answer N N
    (by omega) (Nat.le_refl _) (by omega) hread (Or.inl rfl)
    s.reported.toNat
    { s with pos := 0, nextAddr := s.nextAddr + 1, live := s.nextAddr :: s.live }
    s.reported 0 0
    { size := toSize s.reported, byte := s.junk, addr := s.nextAddr }
    [Call.fs_open src [OFlag.O_RDONLY], Call.fs_total SRC_HND, Call.malloc (toSize s.reported)]
    rfl rfl (Nat.zero_le _) (by rw [hrep]; simp) rfl rfl (by simp [Block.load])
    (Int.self_le_toNat _)
  obtain ⟨v', evs, hv', _, htr, htf⟩ := fs_load_loop_some simKernel SRC_HND
    s.reported.toNat s.reported 0 0
    (some { size := toSize s.reported, byte := s.junk, addr := s.nextAddr })
    { s with pos := 0, nextAddr := s.nextAddr + 1, live := s.nextAddr :: s.live }
    [Call.fs_open src [OFlag.O_RDONLY], Call.fs_total SRC_HND, Call.malloc (toSize s.reported)]
    (Int.self_le_toNat _)
  have hvv : v' = v := by
    rw [hv] at hv'; exact (Option.some.inj hv').symm
  subst hvv
  have hc1 := count_close_of_isTransfer SRC_HND evs htf
  have hl : ¬ v'.left > 0 := by rw [hvl]; omega
  have h := sim_fs_load_of_loop s src p0 hsrc hm v' hv
  rw [if_neg hl] at h
  refine ⟨_, b', h, hvt, hvd, ?_, ?_, ?_⟩
  · rw [hvs.1]; exact hts
  · rw [hvb, ← hN]; simp
  · show (v'.trace ++ _).count _ = 1
    rw [htr]
    simp only [List.count_append, hc1]
    simp [List.count_cons, SRC_HND]

/-- Witness of C6: a file of five bytes read in chunks of two. -/
theorem fs_load_whole_file_witness :
    ∃ r b, fs_load simKernel (simOf [1, 2, 3, 4, 5] 2) "a" none = some r ∧
      r.ret = ((5 : Nat) : Int) ∧ r.out_ptr = some b ∧ b.size = 5 ∧
      b.load 0 5 = (simOf [1, 2, 3, 4, 5] 2).content ∧
      r.trace.count (Call.fs_close SRC_HND) = 1 :=
  fs_load_whole_file (simOf [1, 2, 3, 4, 5] 2) "a" none 5 rfl rfl rfl rfl (by decide)
    (by decide)
    (by intro p hp
        have hp' : p = 0 ∨ p = 1 ∨ p = 2 ∨ p = 3 ∨ p = 4 := by omega
        rcases hp' with h | h | h | h | h <;> subst h <;> decide)

/-- The part of C7 that holds: `fs_load` on a short stream keeps the data when
the `realloc` either succeeds or fails leaving the block as it is. In the
simulated world, for a file reported as `N` bytes (a value of an `ssize_t`)
whose reads deliver `K < N` bytes in all and then yield a value `≤ 0`, with the
buffer allocated, and `K ≥ 1` or a `realloc` that does not free on size 0,
`fs_load` returns `K` and `*out_ptr` is an allocated block whose first `K` bytes
are the first `K` bytes of the file: the block shrunk to `K` bytes when the
`realloc` succeeds, the original block of `N` bytes when it fails. -/
theorem fs_load_short_stream (s : Sim) (src : String) (p0 : Option Block) (N K : Nat)
    (hsrc : s.srcOpens = true) (hm : s.mallocOk = true)
    (hrep : s.reported = (N : Int)) (hfit : N < 2147483648)
    (hK : K < N) (hKc : K ≤ s.content.length)
    (hread : ∀ p, p < K → 1 ≤ s.answer p (N - p) ∧
      s.answer p (N - p) ≤ ((K - p : Nat) : Int))
    (hfail : s.answer K (N - K) ≤ 0)
    (hz : 0 < K ∨ s.zeroFrees = false) :
    ∃ r b, fs_load simKernel s src p0 = some r ∧ r.ret = (K : Int) ∧
      r.out_ptr = some b ∧ b.load 0 K = s.content.take K ∧
      b.size = (if s.reallocOk then K else N) ∧ b.addr ∈ r.st.live ∧
      r.trace.count (Call.fs_close SRC_HND) = 1 := by
  have hts : toSize s.reported = N := by
    rw [hrep]; unfold toSize; omega
  obtain ⟨v, b', hv, hvt, hvl, hvd, hvb, hvs, hvst⟩ := sim_load_loop s.content s.answer N K
    (by omega) (by omega) hKc hread (Or.inr hfail)
    s.reported.toNat
    { s with pos := 0, nextAddr := s.nextAddr + 1, live := s.nextAddr :: s.live }
    s.reported 0 0
    { size := toSize s.reported, byte := s.junk, addr := s.nextAddr }
    [Call.fs_open src [OFlag.O_RDONLY], Call.fs_total SRC_HND, Call.malloc (toSize s.reported)]
    rfl rfl (Nat.zero_le _) (by rw [hrep]; simp) rfl rfl (by simp [Block.load])
    (Int.self_le_toNat _)
  obtain ⟨v', evs, hv', _, htr, htf⟩ := fs_load_loop_some simKernel SRC_HND
    s.reported.toNat s.reported 0 0
    (some { size := toSize s.reported, byte := s.junk, addr := s.nextAddr })
    { s with pos := 0, nextAddr := s.nextAddr + 1, live := s.nextAddr :: s.live }
    [Call.fs_open src [OFlag.O_RDONLY], Call.fs_total SRC_HND, Call.malloc (toSize s.reported)]
    (Int.self_le_toNat _)
  have hvv : v' = v := by
    rw [hv] at hv'; exact (Option.some.inj hv').symm
  subst hvv
  have hc1 := count_close_of_isTransfer SRC_HND evs htf
  have hl : v'.left > 0 := by rw [hvl]; omega
  have htk : toSize v'.total = K := by
    rw [hvt]; unfold toSize; omega
  have h := sim_fs_load_of_loop s src p0 hsrc hm v' hv
  rw [if_pos hl, hvd, htk] at h
  have hcount : (v'.trace ++ [Call.realloc K, Call.fs_close SRC_HND]).count
      (Call.fs_close SRC_HND) = 1 := by
    rw [htr]
    simp only [List.count_append, hc1]
    simp [List.count_cons, SRC_HND]
  have hro : v'.st.reallocOk = s.reallocOk := by rw [hvst]
  have hzf : v'.st.zeroFrees = s.zeroFrees := by rw [hvst]
  have hlive : v'.st.live = s.nextAddr :: s.live := by rw [hvst]
  have hnz : ¬ (K = 0 ∧ v'.st.zeroFrees = true) := by
    rw [hzf]
    rintro ⟨h1, h2⟩
    rcases hz with h3 | h3
    · omega
    · rw [h3] at h2; exact absurd h2 (by decide)
  have haddr : b'.addr ∈ v'.st.live := by
    rw [hlive, hvs.2]; exact List.mem_cons_self _ _
  by_cases hr : s.reallocOk = true
  · rw [sim_realloc_ok v'.st b' K (hro.trans hr) hnz] at h
    refine ⟨_, { size := K, byte := b'.byte, addr := b'.addr }, h, hvt, rfl, ?_, ?_, haddr,
      hcount⟩
    · rw [Block.load_resize]; exact hvb
    · rw [if_pos hr]
  · have hr' : s.reallocOk = false := by simpa using hr
    rw [sim_realloc_fail v'.st b' K (hro.trans hr') hnz] at h
    refine ⟨_, b', h, hvt, rfl, hvb, ?_, haddr, hcount⟩
    rw [hr']
    simp only [Bool.false_eq_true, if_false]
    rw [hvs.1]; exact hts

/-- An instance of the part of C7 that holds: a file reported as five bytes
whose reads deliver one byte each up to the third and then yield 0, the
`realloc` failing. -/
theorem fs_load_short_stream_witness :
    ∃ r b, fs_load simKernel
        { simOf [1, 2, 3, 4, 5] 2 with
          answer := fun p _ => if p < 3 then 1 else 0
          reallocOk := false } "a" none = some r ∧
      r.ret = ((3 : Nat) : Int) ∧ r.out_ptr = some b ∧
      b.load 0 3 = [1, 2, 3, 4, 5].take 3 ∧
      b.size = (if false then 3 else 5) ∧ b.addr ∈ r.st.live ∧
      r.trace.count (Call.fs_close SRC_HND) = 1 :=
  fs_load_short_stream
    { simOf [1, 2, 3, 4, 5] 2 with
      answer := fun p _ => if p < 3 then 1 else 0
      reallocOk := false } "a" none 5 3 rfl rfl rfl (by decide) (by decide) (by decide)
    (by intro p hp
        have hp' : p = 0 ∨ p = 1 ∨ p = 2 := by omega
        rcases hp' with h | h | h <;> subst h <;> decide)
    (by decide) (Or.inl (by decide))

/-- C7, the code at `K = 0` with a `realloc` that frees on size 0: a file
reported as five bytes whose first read yields 0. `fs_load` allocates the block
at address 1, calls `realloc (data, 0)`, which frees the block and returns
null, and stores the pointer to the freed block into `*out_ptr`: it returns 0,
`*out_ptr` is the block at address 1, and no block is allocated any more. -/
theorem fs_load_returns_freed_block :
    (fs_load simKernel
        { simOf [1, 2, 3, 4, 5] 2 with answer := fun _ _ => 0, zeroFrees := true }
        "a" none).map
      (fun r => (r.ret, r.out_ptr.map (fun b => b.addr), r.st.live, r.trace))
      = some (0, some 1, [],
          [Call.fs_open "a" [OFlag.O_RDONLY], Call.fs_total SRC_HND, Call.malloc 5,
            Call.fs_read SRC_HND (some 0) 5, Call.realloc 0, Call.fs_close SRC_HND]) := by
  decide

/-- C11, the code at the two inputs the claim names: `dst = "/foo"` in a 9-byte
buffer with `src = "/bar"`, and `dst = "/foo/"` in a 9-byte buffer with
`src = "/bar"`, both with `len = 9`. The joined path `"/foo/bar"` with its
terminator is 9 bytes long, and both calls fail with `ENAMETOOLONG`: the check
counts a separator that is not inserted, and does not count the one that is
dropped. -/
theorem fs_path_append_check_not_exact :
    (joined [47, 102, 111, 111] [47, 98, 97, 114]).length + 1 = 9 ∧
    fs_path_append (some (cstr [47, 102, 111, 111] [0, 0, 0, 0]))
        (some (cstr [47, 98, 97, 114] [])) 9
      = some { ret := -1, errno := some Errno.ENAMETOOLONG,
               dst := some (cstr [47, 102, 111, 111] [0, 0, 0, 0]) } ∧
    (joined [47, 102, 111, 111, 47] [47, 98, 97, 114]).length + 1 = 9 ∧
    fs_path_append (some (cstr [47, 102, 111, 111, 47] [0, 0, 0]))
        (some (cstr [47, 98, 97, 114] [])) 9
      = some { ret := -1, errno := some Errno.ENAMETOOLONG,
               dst := some (cstr [47, 102, 111, 111, 47] [0, 0, 0]) } := by
  decide

/-- C13, as stated, fails: with a null `dst`, `src = "bar"` and `len = 16` the
call returns -1 and the value stored into `errno` is `EFAULT`, not `EINVAL`. -/
theorem fs_path_append_null_not_einval :
    ∃ r, fs_path_append none (some (cstr [98, 97, 114] [])) 16 = some r ∧ r.ret = -1 ∧
      r.errno = some Errno.EFAULT ∧ r.errno ≠ some Errno.EINVAL :=
  ⟨{ ret := -1, errno := some Errno.EFAULT, dst := none }, by decide, by decide, rfl,
    by decide⟩

/-- C13, amended: with a null `src` or a null `dst`, `fs_path_append` returns -1
and stores `EFAULT` into `errno` (zero capacity alone gives `EINVAL`), for every
`len`, and leaves `dst` as it was; the result does not depend on the bytes of
the other argument, which need not even hold a terminator. -/
theorem fs_path_append_null (dst src : Option (List Nat)) (len : Nat)
    (h : dst = none ∨ src = none) :
    fs_path_append dst src len
      = some { ret := -1, errno := some Errno.EFAULT, dst := dst } := by
  unfold fs_path_append
  rcases h with h | h
  · subst h; cases src <;> rfl
  · subst h; cases dst <;> rfl

/-- Witness of C13 amended: a null `src`, `dst` a memory without terminator,
`len = 0`. -/
theorem fs_path_append_null_witness :
    fs_path_append (some [47, 102]) none 0
      = some { ret := -1, errno := some Errno.EFAULT, dst := some [47, 102] } :=
  fs_path_append_null (some [47, 102]) none 0 (Or.inr rfl)

/-- C14: `fs_path_append` on two empty strings is a no-op. For `dst = ""` and
`src = ""` (whatever bytes follow the terminators) and every `len ≥ 1`, the
call returns 1, stores nothing into `errno` and leaves every byte of `dst` as
it was. -/
theorem fs_path_append_both_empty (rest srest : List Nat) (len : Nat) (hlen : 1 ≤ len) :
    fs_path_append (some (cstr [] rest)) (some (cstr [] srest)) len
      = some { ret := 1, errno := none, dst := some (cstr [] rest) } := by
  have h0 : len ≠ 0 := by omega
  simp [fs_path_append, h0, cstr, strlen]

/-- Witness of C14: `len = 4`, `dst` a 4-byte buffer. -/
theorem fs_path_append_both_empty_witness :
    fs_path_append (some (cstr [] [7, 7, 7])) (some (cstr [] [])) 4
      = some { ret := 1, errno := none, dst := some (cstr [] [7, 7, 7]) } :=
  fs_path_append_both_empty [7, 7, 7] [] 4 (by decide)

/-- C18: `fs_path_append` normalises the junction to one separator. For C
strings `dst` (characters `cs`) and `src` (characters `ss`) that are not both
empty, `dst` an object of at least `len` bytes, the call is defined; whenever
it succeeds the string left in `dst` is `cs` with one trailing `'/'` removed if
it has one, then `"/"`, then `ss` with one leading `'/'` removed if it has one;
and it does succeed, leaving that string with the bytes behind its terminator
untouched and returning its length plus one, whenever
`len ≥ strlen dst + strlen src + 2`. -/
theorem fs_path_append_normalises (cs rest ss srest : List Nat) (len : Nat)
    (hcs : 0 ∉ cs) (hss : 0 ∉ ss) (hne : ¬ (cs = [] ∧ ss = []))
    (hcap : len ≤ (cstr cs rest).length)
    (haddr : Addressable (cstr cs rest) (cstr ss srest)) :
    ∃ r, fs_path_append (some (cstr cs rest)) (some (cstr ss srest)) len = some r ∧
      (r.ret ≠ -1 → ∃ m, r.dst = some m ∧
        chars m = dropTrailingSlash cs ++ SLASH :: dropLeadingSlash ss) ∧
      (cs.length + ss.length + 2 ≤ len →
        r.ret = (((dropTrailingSlash cs ++ SLASH :: dropLeadingSlash ss).length + 1 : Nat) : Int) ∧
        r.errno = none ∧
        r.dst = some (cstr (dropTrailingSlash cs ++ SLASH :: dropLeadingSlash ss)
          ((cstr cs rest).drop
            ((dropTrailingSlash cs ++ SLASH :: dropLeadingSlash ss).length + 1)))) := by
  by_cases hlen : len = 0
  · refine ⟨{ ret := -1, errno := some Errno.EINVAL, dst := some (cstr cs rest) }, ?_, ?_, ?_⟩
    · unfold fs_path_append; simp [hlen]
    · intro h; exact absurd rfl h
    · intro h; omega
  · have hroom : ¬ tooLong cs ss len → (joined cs ss).length + 1 ≤ (cstr cs rest).length := by
      intro hnt
      have h2 : ¬ (if ¬ endsSlash cs then cs.length + ss.length + 2 > len
          else cs.length + ss.length + 1 > len) := fun h => hnt ⟨hne, h⟩
      rw [joined_length, if_neg hne]
      by_cases he : endsSlash cs
      · rw [if_neg (not_not.mpr he)] at h2
        rw [if_neg (fun h => h.1 he)]
        split_ifs <;> omega
      · rw [if_pos he] at h2
        split_ifs <;> omega
    rw [fs_path_append_eval rest srest hcs hss hlen haddr hroom]
    by_cases ht : tooLong cs ss len
    · rw [if_pos ht]
      refine ⟨_, rfl, fun h => absurd rfl h, fun h => ?_⟩
      have h2 := ht.2
      split_ifs at h2 <;> omega
    · rw [if_neg ht, joined_eq_normal hne]
      refine ⟨_, rfl, fun _ => ⟨_, rfl, ?_⟩, fun _ => ⟨rfl, rfl, rfl⟩⟩
      have hz := zero_not_mem_joined hcs hss
      rw [joined_eq_normal hne] at hz
      exact chars_cstr hz _

/-- Witness of C18: `dst = ""` in a 16-byte buffer and `src = "bar"` give
`"/bar"` and the return value 5; `dst = "/foo"` in a 16-byte buffer and
`src = ""` give `"/foo/"` and the return value 6. -/
theorem fs_path_append_normalises_witness :
    (∃ r, fs_path_append (some (cstr [] (List.replicate 15 0)))
        (some (cstr [98, 97, 114] [])) 16 = some r ∧ r.ret = 5 ∧
      r.dst = some (cstr [47, 98, 97, 114] (List.replicate 11 0))) ∧
    (∃ r, fs_path_append (some (cstr [47, 102, 111, 111] (List.replicate 11 0)))
        (some (cstr [] [])) 16 = some r ∧ r.ret = 6 ∧
      r.dst = some (cstr [47, 102, 111, 111, 47] (List.replicate 10 0))) := by
  constructor
  · obtain ⟨r, h1, _, h3⟩ := fs_path_append_normalises [] (List.replicate 15 0)
      [98, 97, 114] [] 16 (by decide) (by decide) (by decide) (by decide) (by decide)
    exact ⟨r, h1, (h3 (by decide)).1, (h3 (by decide)).2.2⟩
  · obtain ⟨r, h1, _, h3⟩ := fs_path_append_normalises [47, 102, 111, 111]
      (List.replicate 11 0) [] [] 16 (by decide) (by decide) (by decide) (by decide)
      (by decide)
    exact ⟨r, h1, (h3 (by decide)).1, (h3 (by decide)).2.2⟩

/-- C12, the code on writes that fail: a source of five bytes read in chunks of
two, every `fs_write` returning -1. `fs_copy` returns 5 and the destination
holds no byte. With every `fs_write` taking one byte only, it returns 5 and the
destination holds three bytes. -/
theorem fs_copy_ignores_write_result :
    (fs_copy simKernel { simOf [1, 2, 3, 4, 5] 2 with accept := fun _ _ => -1 } "a" "b").map
        (fun r => (r.ret, r.st.dest)) = some (5, []) ∧
    (fs_copy simKernel { simOf [1, 2, 3, 4, 5] 2 with accept := fun _ _ => 1 } "a" "b").map
        (fun r => (r.ret, r.st.dest)) = some (5, [1, 3, 5]) := by
  decide

/-- C15, the code on an allocation failure: a file of five bytes, `malloc`
returning null. `fs_load` calls `fs_read` with the null buffer, then
`realloc (NULL, 0)`, and returns 0 with what that `realloc` returned in
`*out_ptr`. -/
theorem fs_load_malloc_unchecked :
    (fs_load simKernel { simOf [1, 2, 3, 4, 5] 2 with mallocOk := false } "a" none).map
        (fun r => (r.ret, r.out_ptr.isSome, r.trace))
      = some (0, true,
          [Call.fs_open "a" [OFlag.O_RDONLY], Call.fs_total SRC_HND, Call.malloc 5,
            Call.fs_read SRC_HND none 5, Call.realloc 0, Call.fs_close SRC_HND]) := by
  decide

/-- C19: `fs_load` keeps its reads inside the allocated buffer. For every
kernel whose `fs_read` never returns more than was asked for, on a file that
opens and is reported as `N` bytes (a value of an `ssize_t`): the loop keeps
`left + total = N`, `0 ≤ left` and `out = total`; every `fs_read` of the run is
issued at the offset `off` of the buffer with a request of `cnt ≥ 1` bytes where
`off + cnt = N`, so that a read returning at most `cnt` stores nothing past
offset `N`; the loop makes at most `N` reads; and the value returned lies
between 0 and `N`. -/
theorem fs_load_reads_in_bounds {σ : Type} (K : Kernel σ) (s : σ) (src : String)
    (p0 : Option Block) (N : Nat)
    (hopen : (K.fs_open s src [OFlag.O_RDONLY]).1 ≠ K.FILEHND_INVALID)
    (hrep : (K.fs_total (K.fs_open s src [OFlag.O_RDONLY]).2
      (K.fs_open s src [OFlag.O_RDONLY]).1).1 = (N : Int))
    (hfit : N < 2147483648)
    (hle : ∀ (s' : σ), Kernel.Reach K s s' →
      ∀ (h : Int) (blk : Option Block) (off cnt : Nat),
        (K.fs_read s' h blk off cnt).1 ≤ (cnt : Int)) :
    (∀ (fuel : Nat) (left total : Int) (out : Nat) (data : Option Block) (s' : σ)
      (tr : List Call), Kernel.Reach K s s' → 0 ≤ left → left + total = (N : Int) →
      (out : Int) = total → left ≤ (fuel : Int) →
      ∃ v, fs_load_loop K (K.fs_open s src [OFlag.O_RDONLY]).1 fuel left total out data s' tr
          = some v ∧
        0 ≤ v.left ∧ v.left + v.total = (N : Int) ∧ (v.out : Int) = v.total) ∧
    ∃ r evs mid, fs_load K s src p0 = some r ∧ 0 ≤ r.ret ∧ r.ret ≤ (N : Int) ∧
      r.trace = [Call.fs_open src [OFlag.O_RDONLY],
          Call.fs_total (K.fs_open s src [OFlag.O_RDONLY]).1, Call.malloc N] ++ evs ++ mid ++
        [Call.fs_close (K.fs_open s src [OFlag.O_RDONLY]).1] ∧
      (mid = [] ∨ ∃ n, mid = [Call.realloc n]) ∧ evs.length ≤ N ∧
      ∀ e ∈ evs, ∃ b cnt, e = Call.fs_read (K.fs_open s src [OFlag.O_RDONLY]).1 b cnt ∧
        1 ≤ cnt ∧ ∀ off, b = some off → off + cnt = N := by
  have hts : toSize ((N : Nat) : Int) = N := by unfold toSize; omega
  constructor
  · intro fuel left total out data s' tr hreach h0 hsum hout hfuel
    obtain ⟨v, _, hv, _, hv0, hvsum, hvout, _⟩ :=
      fs_load_loop_invariant K (K.fs_open s src [OFlag.O_RDONLY]).1 N hfit s hle
        fuel left total out data s' tr hreach h0 hsum hout hfuel
    exact ⟨v, hv, hv0, hvsum, hvout⟩
  · obtain ⟨v, evs, hv, htr, hv0, hvsum, _, hvt, hvlen, hvev⟩ :=
      fs_load_loop_invariant K (K.fs_open s src [OFlag.O_RDONLY]).1 N hfit s hle
        ((N : Int)).toNat (N : Int) 0 0
        (K.malloc (K.fs_total (K.fs_open s src [OFlag.O_RDONLY]).2
          (K.fs_open s src [OFlag.O_RDONLY]).1).2 N).1
        (K.malloc (K.fs_total (K.fs_open s src [OFlag.O_RDONLY]).2
          (K.fs_open s src [OFlag.O_RDONLY]).1).2 N).2
        [Call.fs_open src [OFlag.O_RDONLY],
          Call.fs_total (K.fs_open s src [OFlag.O_RDONLY]).1, Call.malloc N]
        (Kernel.Reach.malloc N (Kernel.Reach.fs_total _
          (Kernel.Reach.fs_open src [OFlag.O_RDONLY] Kernel.Reach.start)))
        (by omega) (by omega) (by simp) (Int.self_le_toNat _)
    have hevs : ∀ e ∈ evs, ∃ b cnt,
        e = Call.fs_read (K.fs_open s src [OFlag.O_RDONLY]).1 b cnt ∧
        1 ≤ cnt ∧ ∀ off, b = some off → off + cnt = N := by
      intro e he
      obtain ⟨b, cnt, h1, h2, h3⟩ := hvev e he
      exact ⟨b, cnt, h1, h2, fun off hoff => (h3 off hoff).2⟩
    have hlenN : evs.length ≤ N := by exact_mod_cast hvlen
    simp only [fs_load, if_neg hopen, hrep, hts, hv, Option.map_some']
    by_cases hl : v.left > 0
    · rw [if_pos hl]
      exact ⟨_, evs, [Call.realloc (toSize v.total)], rfl, hvt, by
        show v.total ≤ (N : Int)
        omega, by simp only [htr, List.append_assoc, List.singleton_append],
        Or.inr ⟨_, rfl⟩, hlenN, hevs⟩
    · rw [if_neg hl]
      exact ⟨_, evs, [], rfl, hvt, by
        show v.total ≤ (N : Int)
        omega, by simp only [htr, List.append_nil], Or.inl rfl, hlenN, hevs⟩

/-- Witness of C19: a file of five bytes read in chunks of two, in the
simulated world. -/
theorem fs_load_reads_in_bounds_witness :
    ∃ r evs mid, fs_load simKernel (simOf [1, 2, 3, 4, 5] 2) "a" none = some r ∧
      0 ≤ r.ret ∧ r.ret ≤ ((5 : Nat) : Int) ∧
      r.trace = [Call.fs_open "a" [OFlag.O_RDONLY],
          Call.fs_total (simKernel.fs_open (simOf [1, 2, 3, 4, 5] 2) "a" [OFlag.O_RDONLY]).1,
          Call.malloc 5] ++ evs ++ mid ++
        [Call.fs_close (simKernel.fs_open (simOf [1, 2, 3, 4, 5] 2) "a" [OFlag.O_RDONLY]).1] ∧
      (mid = [] ∨ ∃ n, mid = [Call.realloc n]) ∧ evs.length ≤ 5 ∧
      ∀ e ∈ evs, ∃ b cnt,
        e = Call.fs_read (simKernel.fs_open (simOf [1, 2, 3, 4, 5] 2) "a" [OFlag.O_RDONLY]).1
          b cnt ∧
        1 ≤ cnt ∧ ∀ off, b = some off → off + cnt = 5 :=
  (fs_load_reads_in_bounds simKernel (simOf [1, 2, 3, 4, 5] 2) "a" none 5 (by decide) rfl
    (by decide)
    (fun s' hr h blk off cnt =>
      sim_read_le s' (by rw [sim_reach_answer hr]; exact simOf_answer_le _ _) h blk off cnt)).2

/-- C16: the conversion between the counter and Unix time round-trips.
`hardware_encode (unix_decode h) = h` for every 32-bit counter value `h`;
`unix_decode (hardware_encode t) = t` for every Unix timestamp `t` from
-631152000 to 3663815295; splitting `h` into the two 16-bit register halves
and joining them gives `h` back; and the offset 631152000 is the number of
seconds from 1950-01-01 00:00:00 to 1970-01-01 00:00:00. -/
theorem rtc_epoch_round_trip :
    (∀ h : Nat, h < 4294967296 → hardware_encode (unix_decode h) = h) ∧
    (∀ t : Int, -631152000 ≤ t → t ≤ 3663815295 → unix_decode (hardware_encode t) = t) ∧
    (∀ h : Nat, h < 4294967296 → timestamp_join (timestamp_high h) (timestamp_low h) = h) ∧
    ((secondsSince1950 1970 1 1 0 0 0 : Nat) : Int) = RTC_EPOCH_DELTA := by
  refine ⟨?_, ?_, ?_, by decide⟩
  · intro h hh
    unfold hardware_encode unix_decode RTC_EPOCH_DELTA
    omega
  · intro t h1 h2
    unfold hardware_encode unix_decode RTC_EPOCH_DELTA
    omega
  · intro h hh
    unfold timestamp_join timestamp_high timestamp_low
    have e1 : h &&& 0xffff = h % 65536 := Nat.and_pow_two_sub_one_eq_mod h 16
    have e2 : (h >>> 16) &&& 0xffff = (h >>> 16) % 65536 :=
      Nat.and_pow_two_sub_one_eq_mod _ 16
    have e3 : (h % 65536) &&& 0xffff = (h % 65536) % 65536 :=
      Nat.and_pow_two_sub_one_eq_mod _ 16
    have hlt : h % 65536 % 65536 < 2 ^ 16 := by omega
    rw [e1, e2, e3, Nat.shiftRight_eq_div_pow, Nat.shiftLeft_eq, Nat.mul_comm,
      ← Nat.mul_add_lt_is_or hlt]
    omega

/-- Witness of C16: the counter value `0x12345678` and the Unix timestamp 0. -/
theorem rtc_epoch_round_trip_witness :
    hardware_encode (unix_decode 305419896) = 305419896 ∧
    unix_decode (hardware_encode 0) = 0 ∧
    timestamp_join (timestamp_high 305419896) (timestamp_low 305419896) = 305419896 :=
  ⟨rtc_epoch_round_trip.1 305419896 (by decide),
    rtc_epoch_round_trip.2.1 0 (by decide) (by decide),
    rtc_epoch_round_trip.2.2.1 305419896 (by decide)⟩

/-- C17: the documented ceiling of the counter is exact. The date
2086-02-06 06:28:15 lies `2 ^ 32 - 1` seconds after 1950-01-01 00:00:00, the
largest value of the 32-bit counter, which is the Unix timestamp 3663815295;
one second later the counter is 0, which is 1950-01-01 00:00:00, the Unix
timestamp -631152000. -/
theorem rtc_ceiling_exact :
    secondsSince1950 2086 2 6 6 28 15 = 2 ^ 32 - 1 ∧
    unix_decode (2 ^ 32 - 1) = 3663815295 ∧
    hardware_encode 3663815295 = 2 ^ 32 - 1 ∧
    hardware_encode (3663815295 + 1) = 0 ∧
    secondsSince1950 1950 1 1 0 0 0 = 0 ∧
    unix_decode 0 = -631152000 := by
  refine ⟨?_, by decide, by decide, by decide, by decide, by decide⟩
  set_option maxRecDepth 100000 in decide

/-- C20: the assertion handler is replaced by a swap. For all handlers `h1` and
`h2`, null allowed, after `assert_set_handler h1` the call
`assert_set_handler h2` returns `h1` and makes `h2` the active handler; a
following `__assert` calls `h2` once, with its five arguments as given, when
`h2` is not null, and calls nothing when `h2` is null; and `__assert_func`
does what `__assert` does with a null `msg`. -/
theorem assert_handler_swap (st : AssertState) (h1 h2 : Option Handler)
    (file : Option String) (line : Int) (expr msg func : Option String) :
    (assert_set_handler (assert_set_handler st h1).2 h2).1 = h1 ∧
    (assert_set_handler (assert_set_handler st h1).2 h2).2.a_hnd = h2 ∧
    __assert (assert_set_handler (assert_set_handler st h1).2 h2).2 file line expr msg func
      = (match h2 with
         | some h => [{ hnd := h, file := file, line := line, expr := expr, msg := msg,
                        func := func }]
         | none => []) ∧
    __assert_func (assert_set_handler (assert_set_handler st h1).2 h2).2 file line func expr
      = __assert (assert_set_handler (assert_set_handler st h1).2 h2).2 file line expr none
          func := by
  refine ⟨rfl, rfl, ?_, rfl⟩
  cases h2 <;> rfl

end KOS
